import Mathlib

/-!
Verification of the QBDI `ExecBlockManager` (src/ExecBlock/ExecBlockManager.cpp).

This file gives a shallow embedding of the translation-cache manager:
its state (the sorted `regions` array with per-region sequence /
instruction caches), the public operations (`writeBasicBlock`,
`getSeqLoc`, `clearCache`, `flushCommit`) and the internal helpers
(`searchRegion`, `findRegion`, `updateRegionStat`, `eraseRegion`), and
proves or refutes the specified properties about them.

Modelling conventions:
* guest addresses (`rword`) and sizes are `Nat`; address arithmetic in
  the manager never wraps for realistic inputs, so no `% 2 ^ 64` is
  applied;
* the `float` expansion ratio `total_translation_size /
  total_translated_size` is modelled as exact rational arithmetic
  truncated to an integer: `(x * total_translation_size) /
  total_translated_size` with `Nat` floor division;
* `std::map` is modelled as an association list with insert-or-assign
  (`upsert`) and lookup (`alookup`);
* fallible container accesses (`front()`, `back()`, `operator[]` on
  vectors) are modelled with `Option`: an operation returns `none`
  exactly when the C++ code would access out of bounds;
* the `ExecBlock` class is not part of the sources under verification
  (only its contract is specified), so it is modelled from the spec,
  see `writeSequence` below.
-/

/-- Half-open guest address interval. The C++ field `end` is a Lean
keyword, so it is named `stop` here. Modelled from the spec: `Range` is
declared outside the verified sources; the spec defines GuestRange as a
half-open interval with `contains` and `overlaps`. -/
structure Range where
  start : Nat
  stop : Nat
deriving DecidableEq

/-- Membership of an address in a half-open range. -/
def Range.containsA (r : Range) (a : Nat) : Prop :=
  r.start ≤ a ∧ a < r.stop

instance (r : Range) (a : Nat) : Decidable (r.containsA a) := by
  unfold Range.containsA; infer_instance

/-- Range inclusion, `r.containsR q` means `q ⊆ r`. -/
def Range.containsR (r : Range) (q : Range) : Prop :=
  r.start ≤ q.start ∧ q.stop ≤ r.stop

instance (r q : Range) : Decidable (r.containsR q) := by
  unfold Range.containsR; infer_instance

/-- Overlap of two half-open ranges. -/
def Range.overlaps (r : Range) (q : Range) : Prop :=
  r.start < q.stop ∧ q.start < r.stop

instance (r q : Range) : Decidable (r.overlaps q) := by
  unfold Range.overlaps; infer_instance

/-- Size of a half-open range. -/
def Range.size (r : Range) : Nat := r.stop - r.start

/-- One guest instruction patch: only the metadata fields the manager
reads (`metadata.address` and `metadata.instSize`). -/
structure Patch where
  address : Nat
  instSize : Nat
deriving DecidableEq

/-- Location of a translated sequence. The C++ `SeqLoc` stores a raw
`ExecBlock*`; the block pointer is represented by the block's index in
the owning region's `blocks` vector (the index the manager itself uses
to fetch the block). -/
structure SeqLoc where
  blockIdx : Nat
  seqID : Nat
  bbIdx : Nat
deriving DecidableEq

/-- Location of a translated instruction: block index and instruction id. -/
structure InstLoc where
  blockIdx : Nat
  instID : Nat
deriving DecidableEq

/-- Guest range endpoints of an original basic block. -/
structure BBInfo where
  start : Nat
  stop : Nat
deriving DecidableEq

/-- Modelled from the spec: `ExecBlock` (not under the verified
sources) is a fixed-capacity buffer holding translated sequences.
`insts` lists the guest addresses of written instructions in id order,
`seqs` maps a sequence id to its inclusive `(startInstID, endInstID)`
interval, and `used` counts written host bytes. -/
structure ExecBlock where
  insts : List Nat
  seqs : List (Nat × Nat)
  used : Nat
deriving DecidableEq

/-- Modelled from the spec: capacity of one ExecBlock's writable code
area (one page in QBDI). -/
def execBlockCapacity : Nat := 4096

/-- Remaining writable byte budget of a block (spec: `getEpilogueOffset`). -/
def ExecBlock.getEpilogueOffset (b : ExecBlock) : Nat :=
  execBlockCapacity - b.used

/-- Fresh empty ExecBlock. -/
def freshExecBlock : ExecBlock := ⟨[], [], 0⟩

/-- Sequence type bit set: Entry / Exit markers (spec §3). The model's
`writeSequence` stores nothing type-dependent, but the marker is kept so
`writeBasicBlock` computes it exactly as the C++ does. -/
structure SeqType where
  entry : Bool
  exit : Bool
deriving DecidableEq

/-- Association list lookup, modelling `std::map::count`/`at`/`operator[]`
reads: returns the value bound to `k`, if any. -/
def alookup {α : Type} : List (Nat × α) → Nat → Option α
  | [], _ => none
  | kv :: t, k => if kv.1 = k then some kv.2 else alookup t k

/-- Association list insert-or-assign, modelling `std::map::operator[] =`. -/
def upsert {α : Type} : List (Nat × α) → Nat → α → List (Nat × α)
  | [], k, v => [(k, v)]
  | kv :: t, k, v => if kv.1 = k then (k, v) :: t else kv :: upsert t k v

/-- One execution region (C++ `ExecRegion`): covered guest range,
translation counters, buffers and per-region caches.  The
`analysisCache` stores only the requested analysis mask since the
analysis payload is outside the verified core. -/
structure ExecRegion where
  covered : Range
  translated : Nat
  available : Nat
  blocks : List ExecBlock
  sequenceCache : List (Nat × SeqLoc)
  instCache : List (Nat × InstLoc)
  bbRegistry : List BBInfo
  analysisCache : List (Nat × Nat)
deriving DecidableEq

/-- Manager state (the fields of `ExecBlockManager` the verified
operations touch). `searchCache` is the one-slot `{address, regionIdx}`
cache of `searchRegion`. -/
structure State where
  regions : List ExecRegion
  flushList : List Nat
  total_translated_size : Nat
  total_translation_size : Nat
  searchCache : Nat × Nat
  analysisCache : List (Nat × Nat)
deriving DecidableEq

/-- Fresh manager: both translation counters start at 1 (avoiding a
division by zero in the expansion ratio), empty `regions`, search cache
`{0, 0}`. -/
def initState : State := ⟨[], [], 1, 1, (0, 0), []⟩

/-- Binary search loop of `searchRegion` (ExecBlockManager.cpp:224-238).
`fuel` is a structural bound on the number of iterations (the interval
`high - low` shrinks every round, so any `fuel ≥ high - low` is enough);
it only makes the recursion structural, the branch tests are the C++
ones. -/
def searchLoop (rs : List ExecRegion) (addr : Nat) : Nat → Nat → Nat → Nat
  | 0, low, _ => low
  | fuel + 1, low, high =>
    if high ≤ low + 1 then low
    else
      let idx := (low + high) / 2
      match rs[idx]? with
      | none => low
      | some reg =>
        if addr < reg.covered.start then searchLoop rs addr fuel low idx
        else if reg.covered.stop ≤ addr then searchLoop rs addr fuel idx high
        else idx

/-- The C++ `searchRegion` (ExecBlockManager.cpp:211-243): returns 0 on
an empty regions array, consults the one-slot cache, otherwise runs the
binary search and stores its answer in the cache. -/
def searchRegion (s : State) (addr : Nat) : Nat × State :=
  if s.regions.length = 0 then (0, s)
  else if s.searchCache.1 = addr then (s.searchCache.2, s)
  else
    let idx := searchLoop s.regions addr s.regions.length 0 s.regions.length
    (idx, { s with searchCache := (addr, idx) })

/-- Extension cost of fitting `cr` into a region covering `cov`
(ExecBlockManager.cpp:267-272): bytes the covered range must grow at
each end. -/
def extCost (cov : Range) (cr : Range) : Nat :=
  (if cov.stop < cr.stop then cr.stop - cov.stop else 0) +
  (if cr.start < cov.start then cov.start - cr.start else 0)

/-- The C++ gate value `(unsigned)(cost * getExpansionRatio())` where
`getExpansionRatio() = (float)total_translation_size /
(float)total_translated_size`; modelled as exact rational arithmetic
truncated to an integer. -/
def ratioFloor (cost tn td : Nat) : Nat := cost * tn / td

/-- Candidate indices examined by `findRegion`
(ExecBlockManager.cpp:249): `low, low+1, low+2`, bounded by the number
of regions. -/
def candList (low len : Nat) : List Nat :=
  (List.range' low 3).filter (fun i => decide (i < len))

/-- Scan of the candidate regions (ExecBlockManager.cpp:249-278).
Returns `.inl i` on the first candidate containing the whole code range
(the C++ early `return i`), otherwise `.inr (best_cost, best_region)`
after folding the cost gate `cost * E < available && cost < best_cost`
over the candidates. -/
def frScan (rs : List ExecRegion) (cr : Range) (tn td : Nat) :
    List Nat → Nat → Nat → Sum Nat (Nat × Nat)
  | [], bc, br => .inr (bc, br)
  | i :: is, bc, br =>
    match rs[i]? with
    | none => frScan rs cr tn td is bc br
    | some reg =>
      if reg.covered.containsR cr then .inl i
      else
        let cost := extCost reg.covered cr
        if ratioFloor cost tn td < reg.available ∧ cost < bc then
          frScan rs cr tn td is cost i
        else frScan rs cr tn td is bc br

/-- Insertion-point search for a new region
(ExecBlockManager.cpp:301-306): first index `≥ low` whose region starts
after `a`, else the array length.  The iteration over indices `low,
low+1, ...` is driven structurally by the dropped suffix of the array. -/
def insertPosAux (a : Nat) : List ExecRegion → Nat → Nat
  | [], i => i
  | r :: t, i => if a < r.covered.start then i else insertPosAux a t (i + 1)

/-- Vector insertion `regions.insert(regions.begin() + n, x)`. -/
def insertAt {α : Type} (n : Nat) (x : α) (l : List α) : List α :=
  l.take n ++ x :: l.drop n

/-- A freshly created region (ExecBlockManager.cpp:314): covers exactly
the code range, `translated = 0`, `available = 0`, no buffers, empty
caches. -/
def newRegion (cr : Range) : ExecRegion := ⟨cr, 0, 0, [], [], [], [], []⟩

/-- The C++ `findRegion` (ExecBlockManager.cpp:245-317): choose the
first candidate containing the code range; otherwise the cheapest
candidate passing the budget gate, extending its covered range to the
union; otherwise create a new region at the sorted insertion point.
Every path records the answer in the one-slot search cache. -/
def findRegion (s : State) (cr : Range) : Nat × State :=
  let ls := searchRegion s cr.start
  let low := ls.1
  let s₁ := ls.2
  let len := s₁.regions.length
  match frScan s₁.regions cr s₁.total_translation_size s₁.total_translated_size
      (candList low len) 4294967295 len with
  | .inl i => (i, { s₁ with searchCache := (cr.start, i) })
  | .inr br2 =>
    let br := br2.2
    match s₁.regions[br]? with
    | some reg =>
      let covered' : Range :=
        ⟨if cr.start < reg.covered.start then cr.start else reg.covered.start,
         if reg.covered.stop < cr.stop then cr.stop else reg.covered.stop⟩
      (br, { s₁ with regions := s₁.regions.set br { reg with covered := covered' },
                     searchCache := (cr.start, br) })
    | none =>
      let ins := insertPosAux cr.start (s₁.regions.drop low) low
      (ins, { s₁ with regions := insertAt ins (newRegion cr) s₁.regions,
                      searchCache := (cr.start, ins) })

/-- Longest prefix of `patches` whose cumulative `instSize` fits in
`budget` host bytes. -/
def maxFit : List Patch → Nat → Nat
  | [], _ => 0
  | p :: ps, b => if p.instSize ≤ b then maxFit ps (b - p.instSize) + 1 else 0

/-- Result of `ExecBlock::writeSequence`. -/
structure SeqWriteResult where
  seqID : Nat
  patchWritten : Nat
  bytesWritten : Nat
  block : ExecBlock
deriving DecidableEq

/-- Modelled from the spec: `ExecBlock::writeSequence` is not under the
verified sources.  Per the spec contract it writes a maximal prefix of
the patches into the buffer, assigning consecutive instruction ids and a
fresh sequence id, and returns the FULL sentinel (here `none`) leaving
the block unchanged when it cannot write; host bytes written are the
guest bytes of the written patches (a 1:1 expansion).  On an empty block
at least one patch is accepted, reflecting the spec's requirement that a
buffer holds any single sequence (a violation is a fatal configuration
error, not a reachable state). -/
def writeSequence (blk : ExecBlock) (patches : List Patch) (_ty : SeqType) :
    Option SeqWriteResult :=
  if patches.isEmpty then none
  else
    let budget := execBlockCapacity - blk.used
    let k0 := maxFit patches budget
    let k := if blk.insts.isEmpty then max 1 k0 else k0
    if k = 0 then none
    else
      let written := patches.take k
      let bytes := (written.map (fun p => p.instSize)).sum
      some ⟨blk.seqs.length, k, bytes,
        ⟨blk.insts ++ written.map (fun p => p.address),
         blk.seqs ++ [(blk.insts.length, blk.insts.length + k - 1)],
         blk.used + bytes⟩⟩

/-- Result of placing one sequence in a region's block list. -/
structure PlaceResult where
  blocks : List ExecBlock
  blockIdx : Nat
  seqID : Nat
  patchWritten : Nat
  bytesWritten : Nat
deriving DecidableEq

/-- The inner `for(i...)` loop of `writeBasicBlock`
(ExecBlockManager.cpp:163-203): try each existing block in order; when
all are full, append a fresh block (which accepts the sequence by the
`writeSequence` contract) and write there. -/
def placeSeq (patches : List Patch) (ty : SeqType) :
    List ExecBlock → Option PlaceResult
  | [] =>
    match writeSequence freshExecBlock patches ty with
    | some res => some ⟨[res.block], 0, res.seqID, res.patchWritten, res.bytesWritten⟩
    | none => none
  | b :: bs =>
    match writeSequence b patches ty with
    | some res => some ⟨res.block :: bs, 0, res.seqID, res.patchWritten, res.bytesWritten⟩
    | none =>
      match placeSeq patches ty bs with
      | some pr => some ⟨b :: pr.blocks, pr.blockIdx + 1, pr.seqID,
                         pr.patchWritten, pr.bytesWritten⟩
      | none => none

/-- Instruction-cache entries recorded for one written sequence
(ExecBlockManager.cpp:185-189): for `id` from `startID` to `endID`
(inclusive, `count = endID + 1 - startID` entries), map the address of
patch `patchIdx + id - startID` to `{blockIdx, id}`.  Returns `none`
when a patch index is out of bounds. -/
def icUpds (basicBlock : List Patch) (patchIdx startID blockIdx : Nat) :
    Nat → Option (List (Nat × InstLoc))
  | 0 => some []
  | j + 1 =>
    match icUpds basicBlock patchIdx startID blockIdx j with
    | none => none
    | some prev =>
      match basicBlock[patchIdx + j]? with
      | none => none
      | some p => some (prev ++ [(p.address, ⟨blockIdx, startID + j⟩)])

/-- Basic-block truncation scan (ExecBlockManager.cpp:142-147): lowest
patch index whose address is already a sequence-cache key, else the
patch count. -/
def truncIdx (cache : List (Nat × SeqLoc)) (basicBlock : List Patch) : Nat :=
  basicBlock.findIdx (fun p => (alookup cache p.address).isSome)

/-- Write loop of `writeBasicBlock` (ExecBlockManager.cpp:161-204):
place the remaining patches `[patchIdx, patchEnd)` as sequences,
recording the sequence and instruction caches and accumulating the
translated guest bytes and written host bytes.  `fuel` structurally
bounds the iteration count (each round writes at least one patch, so
`patchEnd + 1` rounds always suffice); `none` means an out-of-bounds
access or exhausted fuel. -/
def writeLoop (basicBlock : List Patch) (patchEnd bbIdx : Nat) :
    Nat → ExecRegion → Nat → Nat → Nat → Option (ExecRegion × Nat × Nat)
  | 0, _, _, _, _ => none
  | fuel + 1, reg, patchIdx, translated, translation =>
    if patchIdx < patchEnd then
      let sub := (basicBlock.take patchEnd).drop patchIdx
      let ty : SeqType := ⟨decide (patchIdx = 0), decide (patchEnd = basicBlock.length)⟩
      match placeSeq sub ty reg.blocks with
      | none => none
      | some pr =>
        match pr.blocks[pr.blockIdx]? with
        | none => none
        | some blk =>
          match blk.seqs[pr.seqID]? with
          | none => none
          | some se =>
            match basicBlock[patchIdx]? with
            | none => none
            | some p0 =>
              match icUpds basicBlock patchIdx se.1 pr.blockIdx (se.2 + 1 - se.1) with
              | none => none
              | some ups =>
                match basicBlock[patchIdx + pr.patchWritten - 1]? with
                | none => none
                | some pl =>
                  let newLoc : SeqLoc := ⟨pr.blockIdx, pr.seqID, bbIdx⟩
                  let reg' := { reg with
                    blocks := pr.blocks,
                    sequenceCache := upsert reg.sequenceCache p0.address newLoc,
                    instCache := ups.foldl (fun m kv => upsert m kv.1 kv.2) reg.instCache }
                  writeLoop basicBlock patchEnd bbIdx fuel reg'
                    (patchIdx + pr.patchWritten)
                    (translated + (pl.address + pl.instSize - p0.address))
                    (translation + pr.bytesWritten)
    else some (reg, translated, translation)

/-- The C++ `updateRegionStat` (ExecBlockManager.cpp:319-339): add the
newly translated guest bytes, set `available` to the first block's
epilogue offset minus the space reserved for the untranslated part of
the covered range, clamping to 0 with the code's strict comparison
`reserved > available`. -/
def updateRegionStat (s : State) (r translated : Nat) : Option State :=
  match s.regions[r]? with
  | none => none
  | some reg =>
    match reg.blocks[0]? with
    | none => none
    | some b0 =>
      let reg₁ := { reg with translated := reg.translated + translated }
      let avail := b0.getEpilogueOffset
      let reserved := ratioFloor (reg₁.covered.size - reg₁.translated)
        s.total_translation_size s.total_translated_size
      let avail' := if avail < reserved then 0 else avail - reserved
      some { s with regions := s.regions.set r { reg₁ with available := avail' } }

/-- Rendering of the spec's sentence for `updateRegionStat` (spec §4.3):
identical computation except the clamp uses the non-strict rule `if
reserved ≥ available then available = 0`. -/
def updateRegionStatSpec (s : State) (r translated : Nat) : Option State :=
  match s.regions[r]? with
  | none => none
  | some reg =>
    match reg.blocks[0]? with
    | none => none
    | some b0 =>
      let reg₁ := { reg with translated := reg.translated + translated }
      let avail := b0.getEpilogueOffset
      let reserved := ratioFloor (reg₁.covered.size - reg₁.translated)
        s.total_translation_size s.total_translated_size
      let avail' := if reserved ≥ avail then 0 else avail - reserved
      some { s with regions := s.regions.set r { reg₁ with available := avail' } }

/-- The C++ `writeBasicBlock` (ExecBlockManager.cpp:130-209): read the
first and last patch, find a region, truncate against the region's
sequence cache, register the basic block, run the write loop, and commit
the translation counters.  `none` marks the out-of-domain cases (empty
patch list, or an out-of-bounds container access). -/
def writeBasicBlock (s : State) (basicBlock : List Patch) : Option State :=
  match basicBlock.head?, basicBlock.getLast? with
  | some firstPatch, some lastPatch =>
    let cr : Range := ⟨firstPatch.address, lastPatch.address + lastPatch.instSize⟩
    let rs₁ := findRegion s cr
    let r := rs₁.1
    let s₁ := rs₁.2
    match s₁.regions[r]? with
    | none => none
    | some reg =>
      let patchEnd := truncIdx reg.sequenceCache basicBlock
      if patchEnd = 0 then some s₁
      else
        let reg₁ := { reg with bbRegistry := reg.bbRegistry ++
          [⟨firstPatch.address, lastPatch.address + lastPatch.instSize⟩] }
        let bbIdx := reg₁.bbRegistry.length - 1
        match writeLoop basicBlock patchEnd bbIdx (patchEnd + 1) reg₁ 0 0 0 with
        | none => none
        | some rtt =>
          let s₂ := { s₁ with
            regions := s₁.regions.set r rtt.1,
            total_translation_size := s₁.total_translation_size + rtt.2.2,
            total_translated_size := s₁.total_translated_size + rtt.2.1 }
          updateRegionStat s₂ r rtt.2.1
  | _, _ => none

/-- Modelled from the spec: `ExecBlock::getSeqID` maps an instruction id
to the sequence containing it; the first (lowest) sequence id is the
originally written sequence, split suffixes are appended after it. -/
def ExecBlock.getSeqID (b : ExecBlock) (instID : Nat) : Option Nat :=
  b.seqs.findIdx? (fun se => decide (se.1 ≤ instID ∧ instID ≤ se.2))

/-- Modelled from the spec: `ExecBlock::splitSequence` turns the suffix
of the enclosing sequence starting at `instID` into its own sequence
over the same bytes, returning the fresh sequence id. -/
def ExecBlock.splitSequence (b : ExecBlock) (instID : Nat) :
    Option (ExecBlock × Nat) :=
  match b.getSeqID instID with
  | none => none
  | some sid =>
    match b.seqs[sid]? with
    | none => none
    | some se => some ({ b with seqs := b.seqs ++ [(instID, se.2)] }, b.seqs.length)

/-- The C++ `getSeqLoc` (ExecBlockManager.cpp:74-110).  The inner
`Option SeqLoc` is the function's result (`none` models the
`{nullptr, 0}` cache miss); the outer `Option` marks the out-of-domain
executions: an out-of-bounds vector access, or the `operator[]` read of
`sequenceCache[existingBBAddress]` on a missing key (which in C++ would
default-construct a null entry). -/
def getSeqLoc (s : State) (addr : Nat) : Option (Option SeqLoc × State) :=
  let rs₁ := searchRegion s addr
  let r := rs₁.1
  let s₁ := rs₁.2
  match s₁.regions[r]? with
  | none => some (none, s₁)
  | some reg =>
    if reg.covered.containsA addr then
      match alookup reg.sequenceCache addr with
      | some seqLoc => some (some seqLoc, s₁)
      | none =>
        match alookup reg.instCache addr with
        | some instLoc =>
          match reg.blocks[instLoc.blockIdx]? with
          | none => none
          | some block =>
            match block.getSeqID instLoc.instID with
            | none => none
            | some existingSeqId =>
              match block.seqs[existingSeqId]? with
              | none => none
              | some se =>
                match block.insts[se.1]? with
                | none => none
                | some existingBBAddress =>
                  match alookup reg.sequenceCache existingBBAddress with
                  | none => none
                  | some exLoc =>
                    match reg.bbRegistry[exLoc.bbIdx]? with
                    | none => none
                    | some bbOld =>
                      let reg₁ := { reg with bbRegistry :=
                        reg.bbRegistry ++ [(⟨addr, bbOld.stop⟩ : BBInfo)] }
                      match block.splitSequence instLoc.instID with
                      | none => none
                      | some bn =>
                        let newBBIdx := reg₁.bbRegistry.length - 1
                        let seqLoc : SeqLoc := ⟨instLoc.blockIdx, bn.2, newBBIdx⟩
                        let reg₂ := { reg₁ with
                          blocks := reg₁.blocks.set instLoc.blockIdx bn.1,
                          sequenceCache := upsert reg₁.sequenceCache addr seqLoc }
                        some (some seqLoc, { s₁ with regions := s₁.regions.set r reg₂ })
        | none => some (none, s₁)
    else some (none, s₁)

/-- The C++ `eraseRegion` (ExecBlockManager.cpp:603-616): drop the
region's buffers and analyses (owned data, no manager field outside the
slot) and erase the slot.  Note it does not touch `searchCache`. -/
def eraseRegion (s : State) (r : Nat) : State :=
  { s with regions := s.regions.eraseIdx r }

/-- Boolean overlap test used by `clearCache`. -/
def overlapsB (a b : Range) : Bool := decide (a.overlaps b)

/-- Indices of the regions whose covered range overlaps `range`, in
increasing order (the scan of ExecBlockManager.cpp:651-655). -/
def flushIdxs (rs : List ExecRegion) (range : Range) : List Nat :=
  (List.range rs.length).filter
    (fun i => ((rs[i]?).map (fun reg => overlapsB reg.covered range)).getD false)

/-- The C++ `clearCache(Range)` (ExecBlockManager.cpp:648-656): push the
indices of every overlapped region onto the deferred `flushList`; no map
or region is mutated yet. -/
def clearCacheRange (s : State) (range : Range) : State :=
  { s with flushList := s.flushList ++ flushIdxs s.regions range }

/-- The C++ `clearCache(RangeSet)` (ExecBlockManager.cpp:618-626):
apply `clearCache` to each range, then reset both translation counters
to 1.  Note it does not touch `searchCache`. -/
def clearCacheSet (s : State) (ranges : List Range) : State :=
  let s₁ := ranges.foldl clearCacheRange s
  { s₁ with total_translated_size := 1, total_translation_size := 1 }

/-- The C++ `clearCache()` (ExecBlockManager.cpp:658-663): erase every
region, last to first, leaving `regions` empty; `flushList`, the
counters, the global analysis cache and `searchCache` are untouched. -/
def clearCacheAll (s : State) : State :=
  { s with regions := [] }

/-- Descending insertion used to model `std::sort(..., std::greater)`:
semantically, `sortDesc` sorts into non-increasing order. -/
def insertDesc (x : Nat) : List Nat → List Nat
  | [] => [x]
  | h :: t => if h ≤ x then x :: h :: t else h :: insertDesc x t

/-- Sort a list into descending order (the `std::sort` with
`std::greater` of ExecBlockManager.cpp:632). -/
def sortDesc (l : List Nat) : List Nat :=
  l.foldl (fun acc x => insertDesc x acc) []

/-- Helper of `dedupAdj`: drop elements equal to the previous kept one. -/
def dedupAdjAux (prev : Nat) : List Nat → List Nat
  | [] => []
  | b :: t => if b = prev then dedupAdjAux prev t else b :: dedupAdjAux b t

/-- Remove adjacent duplicates keeping the first of each run (the
`std::unique` + `erase` of ExecBlockManager.cpp:634). -/
def dedupAdj : List Nat → List Nat
  | [] => []
  | a :: t => a :: dedupAdjAux a t

/-- The C++ `flushCommit` (ExecBlockManager.cpp:628-646): when the
deferred list is non-empty, sort it descending, deduplicate, erase each
indexed region in that order, clear the list and the manager-wide
analysis cache, and reset the one-slot search cache. -/
def flushCommit (s : State) : State :=
  if s.flushList.isEmpty then s
  else
    let fl := dedupAdj (sortDesc s.flushList)
    let s₁ := fl.foldl (fun st r => eraseRegion st r) s
    { s₁ with flushList := [], analysisCache := [], searchCache := (0, 0) }

/-- Executable check of the spec's region-order invariant: consecutive
regions satisfy `covered.end ≤ next.covered.start` (which under
half-open ranges is sortedness plus disjointness). -/
def regionsOrderedB : List ExecRegion → Bool
  | [] => true
  | [_] => true
  | a :: b :: t =>
    decide (a.covered.stop ≤ b.covered.start) && regionsOrderedB (b :: t)

lemma alookup_upsert_self {α : Type} (m : List (Nat × α)) (k : Nat) (v : α) :
    alookup (upsert m k v) k = some v := by
  induction m with
  | nil => simp [upsert, alookup]
  | cons kv t ih =>
    by_cases h : kv.1 = k
    · simp [upsert, h, alookup]
    · simp [upsert, h, alookup, ih]

lemma alookup_upsert_ne {α : Type} (m : List (Nat × α)) (k k' : Nat) (v : α)
    (h : k' ≠ k) : alookup (upsert m k v) k' = alookup m k' := by
  have h' : k ≠ k' := Ne.symm h
  induction m with
  | nil => simp [upsert, alookup, h']
  | cons kv t ih =>
    by_cases hk : kv.1 = k
    · subst hk
      simp [upsert, alookup, h']
    · simp only [upsert, hk, if_false, alookup]
      by_cases hk' : kv.1 = k' <;> simp [hk', ih]

lemma alookup_upsert_isSome {α : Type} (m : List (Nat × α)) (k k' : Nat) (v : α)
    (h : (alookup m k').isSome) : (alookup (upsert m k v) k').isSome := by
  by_cases hk : k' = k
  · subst hk; simp [alookup_upsert_self]
  · rwa [alookup_upsert_ne m k k' v hk]

lemma alookup_foldl_upsert_isSome {α : Type} (l : List (Nat × α)) (m : List (Nat × α))
    (k : Nat) (h : (alookup m k).isSome) :
    (alookup (l.foldl (fun acc kv => upsert acc kv.1 kv.2) m) k).isSome := by
  induction l generalizing m with
  | nil => simpa using h
  | cons kv t ih =>
    simp only [List.foldl_cons]
    exact ih _ (alookup_upsert_isSome _ _ _ _ h)

lemma alookup_foldl_upsert_mem {α : Type} (l : List (Nat × α)) (m : List (Nat × α))
    (k : Nat) (h : ∃ v, (k, v) ∈ l) :
    (alookup (l.foldl (fun acc kv => upsert acc kv.1 kv.2) m) k).isSome := by
  induction l generalizing m with
  | nil => simp at h
  | cons kv t ih =>
    obtain ⟨v, hv⟩ := h
    rcases List.mem_cons.1 hv with he | ht
    · subst he
      simp only [List.foldl_cons]
      exact alookup_foldl_upsert_isSome _ _ _ (by simp [alookup_upsert_self])
    · exact ih _ ⟨v, ht⟩

lemma searchRegion_fields (s : State) (a : Nat) :
    (searchRegion s a).2.regions = s.regions ∧
    (searchRegion s a).2.flushList = s.flushList ∧
    (searchRegion s a).2.total_translated_size = s.total_translated_size ∧
    (searchRegion s a).2.total_translation_size = s.total_translation_size ∧
    (searchRegion s a).2.analysisCache = s.analysisCache := by
  unfold searchRegion
  split
  · exact ⟨rfl, rfl, rfl, rfl, rfl⟩
  · split
    · exact ⟨rfl, rfl, rfl, rfl, rfl⟩
    · exact ⟨rfl, rfl, rfl, rfl, rfl⟩

/-- Region `i` exists and its covered range starts at or before `addr`. -/
def startLE (rs : List ExecRegion) (i : Nat) (addr : Nat) : Prop :=
  ∃ reg, rs[i]? = some reg ∧ reg.covered.start ≤ addr

lemma startMono (rs : List ExecRegion)
    (hord : rs.Pairwise (fun a b => a.covered.stop ≤ b.covered.start))
    {i j : Nat} {ri rj : ExecRegion} (hij : i < j)
    (hi : rs[i]? = some ri) (hj : rs[j]? = some rj) :
    ri.covered.stop ≤ rj.covered.start := by
  rw [List.getElem?_eq_some] at hi hj
  obtain ⟨hi1, hi2⟩ := hi
  obtain ⟨hj1, hj2⟩ := hj
  have := List.pairwise_iff_get.1 hord ⟨i, hi1⟩ ⟨j, hj1⟩ hij
  simpa [hi2, hj2] using this

lemma searchLoop_succ (rs : List ExecRegion) (addr fuel low high : Nat) :
    searchLoop rs addr (fuel + 1) low high =
      if high ≤ low + 1 then low
      else
        match rs[(low + high) / 2]? with
        | none => low
        | some reg =>
          if addr < reg.covered.start then searchLoop rs addr fuel low ((low + high) / 2)
          else if reg.covered.stop ≤ addr then
            searchLoop rs addr fuel ((low + high) / 2) high
          else (low + high) / 2 := rfl

lemma searchLoop_invariant (rs : List ExecRegion) (addr : Nat)
    (hord : rs.Pairwise (fun a b => a.covered.stop ≤ b.covered.start))
    (hwf : ∀ reg ∈ rs, reg.covered.start ≤ reg.covered.stop) :
    ∀ fuel low high, high ≤ rs.length → low < high → high - low ≤ fuel →
    (low = 0 ∨ startLE rs low addr) →
    (∀ j reg, high ≤ j → rs[j]? = some reg → addr < reg.covered.start) →
    low ≤ searchLoop rs addr fuel low high ∧
    searchLoop rs addr fuel low high < high ∧
    (searchLoop rs addr fuel low high = 0 ∨ startLE rs (searchLoop rs addr fuel low high) addr) ∧
    (∀ j reg, searchLoop rs addr fuel low high < j → rs[j]? = some reg →
      addr < reg.covered.start) := by
  intro fuel
  induction fuel with
  | zero => intro low high _ h2 h3 _ _; omega
  | succ fuel ih =>
    intro low high h1 h2 h3 hlow hhigh
    by_cases hstep : high ≤ low + 1
    · have hres : searchLoop rs addr (fuel + 1) low high = low := by
        rw [searchLoop_succ]; simp [hstep]
      refine ⟨by omega, by omega, ?_, ?_⟩ <;> rw [hres]
      · exact hlow
      · intro j reg hj hreg
        exact hhigh j reg (by omega) hreg
    · have hidx : (low + high) / 2 < rs.length := by omega
      obtain ⟨regm, hregm⟩ : ∃ regm, rs[(low + high) / 2]? = some regm := by
        exact ⟨rs[(low + high) / 2], List.getElem?_eq_getElem hidx⟩
      have hmem : regm ∈ rs := by
        rw [List.getElem?_eq_some] at hregm
        obtain ⟨h, he⟩ := hregm
        exact he ▸ List.getElem_mem h
      by_cases hlt : addr < regm.covered.start
      · have hres : searchLoop rs addr (fuel + 1) low high =
            searchLoop rs addr fuel low ((low + high) / 2) := by
          rw [searchLoop_succ]; simp [hstep, hregm, hlt]
        rw [hres]
        have hrec := ih low ((low + high) / 2) (by omega) (by omega) (by omega) hlow ?_
        · exact ⟨hrec.1, by omega, hrec.2.2.1, hrec.2.2.2⟩
        · intro j reg hj hreg
          rcases Nat.lt_or_ge ((low + high) / 2) j with hj2 | hj2
          · have := startMono rs hord hj2 hregm hreg
            have := hwf regm hmem
            omega
          · have hj2' : (low + high) / 2 = j := by omega
            rw [hj2'] at hregm
            rw [hregm] at hreg
            cases hreg
            omega
      · by_cases hge : regm.covered.stop ≤ addr
        · have hres : searchLoop rs addr (fuel + 1) low high =
              searchLoop rs addr fuel ((low + high) / 2) high := by
            rw [searchLoop_succ]; simp [hstep, hregm, hlt, hge]
          rw [hres]
          have hstart : startLE rs ((low + high) / 2) addr := by
            refine ⟨regm, hregm, ?_⟩
            have := hwf regm hmem
            omega
          have hrec := ih ((low + high) / 2) high h1 (by omega) (by omega)
            (Or.inr hstart) hhigh
          exact ⟨by omega, hrec.2.1, hrec.2.2.1, hrec.2.2.2⟩
        · have hres : searchLoop rs addr (fuel + 1) low high = (low + high) / 2 := by
            rw [searchLoop_succ]; simp [hstep, hregm, hlt, hge]
          rw [hres]
          refine ⟨by omega, by omega, Or.inr ⟨regm, hregm, by omega⟩, ?_⟩
          intro j reg hj hreg
          have := startMono rs hord hj hregm hreg
          omega

/-- Claim C6: for a sorted, non-overlapping regions array (and a missed
one-slot cache, so that the binary search actually runs), `searchRegion`
returns 0 on an empty array, otherwise an in-bounds index; it returns
the index of the region containing `addr` when one does, and in any case
the last index whose region starts at or before `addr` (0 when `addr`
precedes every region). -/
theorem searchRegion_correct (s : State) (addr : Nat)
    (hmiss : s.searchCache.1 ≠ addr)
    (hord : s.regions.Pairwise (fun a b => a.covered.stop ≤ b.covered.start))
    (hwf : ∀ reg ∈ s.regions, reg.covered.start ≤ reg.covered.stop) :
    (s.regions.length = 0 → (searchRegion s addr).1 = 0) ∧
    (0 < s.regions.length → (searchRegion s addr).1 < s.regions.length) ∧
    (∀ i reg, s.regions[i]? = some reg → reg.covered.containsA addr →
      (searchRegion s addr).1 = i) ∧
    ((searchRegion s addr).1 = 0 ∨
      ∃ reg, s.regions[(searchRegion s addr).1]? = some reg ∧ reg.covered.start ≤ addr) ∧
    (∀ j reg, s.regions[j]? = some reg → reg.covered.start ≤ addr →
      j ≤ (searchRegion s addr).1) := by
  by_cases hlen : s.regions.length = 0
  · have hres : searchRegion s addr = (0, s) := by unfold searchRegion; simp [hlen]
    refine ⟨fun _ => by rw [hres], fun h => by omega, ?_, Or.inl (by rw [hres]), ?_⟩
    · intro i reg hreg _
      rw [List.getElem?_eq_some] at hreg
      obtain ⟨hlt, _⟩ := hreg
      omega
    · intro j reg hreg _
      rw [List.getElem?_eq_some] at hreg
      obtain ⟨hlt, _⟩ := hreg
      omega
  · have hres : (searchRegion s addr).1 =
        searchLoop s.regions addr s.regions.length 0 s.regions.length := by
      unfold searchRegion; simp [hlen, hmiss]
    have hinv := searchLoop_invariant s.regions addr hord hwf s.regions.length 0
      s.regions.length (le_refl _) (by omega) (by omega) (Or.inl rfl) ?_
    · rw [hres]
      refine ⟨fun h => by omega, fun _ => hinv.2.1, ?_, hinv.2.2.1, ?_⟩
      · intro i reg hreg hcont
        obtain ⟨hstart, hstop⟩ := hcont
        set res := searchLoop s.regions addr s.regions.length 0 s.regions.length with hr
        rcases Nat.lt_trichotomy res i with h | h | h
        · have := hinv.2.2.2 i reg h hreg
          omega
        · exact h
        · rcases hinv.2.2.1 with h0 | ⟨regr, hregr, hler⟩
          · omega
          · have := startMono s.regions hord h hreg hregr
            omega
      · intro j reg hreg hle
        by_contra hgt
        have := hinv.2.2.2 j reg (by omega) hreg
        omega
    · intro j reg hj hreg
      rw [List.getElem?_eq_some] at hreg
      obtain ⟨hlt, _⟩ := hreg
      omega

/-- A tiny concrete manager used to witness the search theorems: two
disjoint regions and an unrelated search cache. -/
def twoRegionState : State :=
  ⟨[⟨⟨100, 110⟩, 0, 0, [], [], [], [], []⟩,
    ⟨⟨200, 210⟩, 0, 0, [], [], [], [], []⟩], [], 1, 1, (0, 0), []⟩

/-- Witness for `searchRegion_correct`: in `twoRegionState`, address 205
lies in the second region and `searchRegion` returns its index 1. -/
theorem searchRegion_correct_witness : (searchRegion twoRegionState 205).1 = 1 :=
  (searchRegion_correct twoRegionState 205 (by decide) (by decide)
    (by decide)).2.2.1 1 ⟨⟨200, 210⟩, 0, 0, [], [], [], [], []⟩ rfl (by decide)

/-- Claim C9: `updateRegionStat` adds the translated bytes, then sets
`available` to the first block's epilogue offset minus the reservation
for untranslated covered bytes, clamping at 0; the code's strict
comparison (`reserved > available` sets 0, else subtract) yields the
same final `available` as the spec's non-strict rule, because at
`reserved = available` the subtraction is 0 anyway. -/
theorem updateRegionStat_clamp_eq (s : State) (r translated : Nat) :
    updateRegionStat s r translated = updateRegionStatSpec s r translated := by
  have h : ∀ a b : Nat, (if a < b then 0 else a - b) = (if b ≥ a then 0 else a - b) := by
    intro a b; split_ifs <;> omega
  unfold updateRegionStat updateRegionStatSpec
  cases hreg : s.regions[r]? with
  | none => rfl
  | some reg =>
    simp only []
    cases hb : reg.blocks[0]? with
    | none => simp [hb]
    | some b0 => simp [hb, h]

/-- A manager whose one-slot search cache points at region index 1
(address 205), with two regions and non-trivial translation counters. -/
def staleCacheState : State :=
  ⟨[⟨⟨100, 110⟩, 0, 0, [], [], [], [], []⟩,
    ⟨⟨200, 210⟩, 0, 0, [], [], [], [], []⟩], [], 7, 9, (205, 1), []⟩

/-- Counterexample to claim C8: `eraseRegion` does not invalidate the
one-slot search cache, and a subsequent `searchRegion` on the cached
address serves the stale index 1, which is out of bounds for the
remaining single-region array; likewise the counter reset of
`clearCache(rangeSet)` leaves the cache untouched. -/
theorem searchCache_stale_cex :
    (eraseRegion staleCacheState 0).searchCache = (205, 1) ∧
    (eraseRegion staleCacheState 0).regions.length = 1 ∧
    (searchRegion (eraseRegion staleCacheState 0) 205).1 = 1 ∧
    (clearCacheSet staleCacheState []).total_translated_size = 1 ∧
    (clearCacheSet staleCacheState []).total_translation_size = 1 ∧
    (clearCacheSet staleCacheState []).searchCache = (205, 1) := by
  decide

lemma clearCacheRange_searchCache (s : State) (range : Range) :
    (clearCacheRange s range).searchCache = s.searchCache := rfl

lemma foldl_clearCacheRange_searchCache (ranges : List Range) (s : State) :
    (ranges.foldl clearCacheRange s).searchCache = s.searchCache := by
  induction ranges generalizing s with
  | nil => rfl
  | cons r t ih => simpa [clearCacheRange_searchCache] using ih (clearCacheRange s r)

/-- Amended claim C8: the one-slot search cache is reset only by
`flushCommit` (when its deferred list is non-empty); `eraseRegion` and
the counter reset of `clearCache(rangeSet)` leave it untouched; and on
an empty regions array `searchRegion` returns 0 without consulting the
cache (which is why the stale cache left by `clearCache()` is never
served; the next region insertion overwrites the slot through
`findRegion`). -/
theorem searchCache_reset_policy :
    (∀ s : State, s.flushList ≠ [] → (flushCommit s).searchCache = (0, 0)) ∧
    (∀ (s : State) (ranges : List Range),
      (clearCacheSet s ranges).searchCache = s.searchCache) ∧
    (∀ (s : State) (r : Nat), (eraseRegion s r).searchCache = s.searchCache) ∧
    (∀ (s : State) (a : Nat), s.regions = [] → searchRegion s a = (0, s)) := by
  refine ⟨?_, ?_, ?_, ?_⟩
  · intro s h
    unfold flushCommit
    split
    · simp_all [List.isEmpty_iff]
    · rfl
  · intro s ranges
    unfold clearCacheSet
    simp [foldl_clearCacheRange_searchCache]
  · intro s r
    rfl
  · intro s a h
    unfold searchRegion
    simp [h]

/-- Witness for `searchCache_reset_policy`, discharging each hypothesis
at a concrete state. -/
theorem searchCache_reset_policy_witness :
    (flushCommit ⟨[], [3], 1, 1, (205, 1), []⟩).searchCache = (0, 0) ∧
    searchRegion initState 42 = (0, initState) :=
  ⟨searchCache_reset_policy.1 ⟨[], [3], 1, 1, (205, 1), []⟩ (by decide),
   searchCache_reset_policy.2.2.2 initState 42 rfl⟩

lemma flushIdxs_cons (a : ExecRegion) (t : List ExecRegion) (range : Range) :
    flushIdxs (a :: t) range =
      (if overlapsB a.covered range then [0] else []) ++
        (flushIdxs t range).map (· + 1) := by
  unfold flushIdxs
  rw [List.length_cons, List.range_succ_eq_map, List.filter_cons]
  rw [List.filter_map]
  have hpred : ((fun i =>
      ((((a :: t)[i]?).map fun reg => overlapsB reg.covered range).getD false)) ∘
        Nat.succ) =
      fun i => (((t[i]?).map fun reg => overlapsB reg.covered range).getD false) := by
    funext i
    simp [Function.comp, List.getElem?_cons_succ]
  rw [hpred]
  by_cases h : overlapsB a.covered range <;> simp [h]

lemma foldr_eraseIdx_map_succ (idxs : List Nat) (a : ExecRegion) (t : List ExecRegion) :
    (idxs.map (· + 1)).foldr (fun i acc => acc.eraseIdx i) (a :: t) =
      a :: idxs.foldr (fun i acc => acc.eraseIdx i) t := by
  induction idxs with
  | nil => rfl
  | cons i is ih => simp [List.foldr_cons, ih, List.eraseIdx_cons_succ]

lemma foldr_eraseIdx_flushIdxs (rs : List ExecRegion) (range : Range) :
    (flushIdxs rs range).foldr (fun i acc => acc.eraseIdx i) rs =
      rs.filter (fun reg => !overlapsB reg.covered range) := by
  induction rs with
  | nil => rfl
  | cons a t ih =>
    rw [flushIdxs_cons, List.foldr_append, foldr_eraseIdx_map_succ, ih]
    by_cases h : overlapsB a.covered range <;> simp [h]

lemma foldl_insertDesc_ascending (l : List Nat) :
    ∀ acc : List Nat, l.Pairwise (· < ·) →
    (∀ y x, acc.head? = some y → x ∈ l → y < x) →
    l.foldl (fun acc x => insertDesc x acc) acc = l.reverse ++ acc := by
  induction l with
  | nil => intro acc _ _; simp
  | cons x t ih =>
    intro acc hp hacc
    have hx : insertDesc x acc = x :: acc := by
      cases acc with
      | nil => rfl
      | cons y ys =>
        have := hacc y x rfl (List.mem_cons_self x t)
        unfold insertDesc
        simp [Nat.le_of_lt this]
    rw [List.foldl_cons, hx, ih (x :: acc) hp.of_cons ?_]
    · simp
    · intro y z hy hz
      cases Option.some.inj hy
      exact List.rel_of_pairwise_cons hp hz

lemma sortDesc_ascending (l : List Nat) (h : l.Pairwise (· < ·)) :
    sortDesc l = l.reverse := by
  unfold sortDesc
  simpa using foldl_insertDesc_ascending l [] h (by intro y x hy _; cases hy)

lemma dedupAdjAux_desc (l : List Nat) :
    ∀ prev, (∀ x ∈ l, x < prev) → l.Pairwise (fun a b => b < a) →
    dedupAdjAux prev l = l := by
  induction l with
  | nil => intro prev _ _; rfl
  | cons b t ih =>
    intro prev hlt hp
    have hb : b < prev := hlt b (List.mem_cons_self b t)
    unfold dedupAdjAux
    rw [if_neg (by omega)]
    rw [ih b (fun x hx => List.rel_of_pairwise_cons hp hx) hp.of_cons]

lemma dedupAdj_desc (l : List Nat) (h : l.Pairwise (fun a b => b < a)) :
    dedupAdj l = l := by
  cases l with
  | nil => rfl
  | cons a t =>
    have := dedupAdjAux_desc t a (fun x hx => List.rel_of_pairwise_cons h hx) h.of_cons
    simp [dedupAdj, this]

lemma flushIdxs_pairwise (rs : List ExecRegion) (range : Range) :
    (flushIdxs rs range).Pairwise (· < ·) :=
  List.Pairwise.filter _ (List.pairwise_lt_range rs.length)

lemma foldl_eraseRegion_regions (l : List Nat) :
    ∀ s : State, (l.foldl (fun st r => eraseRegion st r) s).regions =
      l.foldl (fun rs i => rs.eraseIdx i) s.regions := by
  induction l with
  | nil => intro s; rfl
  | cons i t ih => intro s; simpa [eraseRegion] using ih (eraseRegion s i)

/-- Claim C7: starting from a state with an empty deferred flush list,
`clearCache(range)` immediately followed by `flushCommit()` removes
exactly the regions whose covered range overlaps `range` and leaves the
others untouched (in order); `flushCommit` erases the marked indices in
descending order after deduplication, which is what makes the erasure
well-defined. -/
theorem clearCache_flushCommit_filters (s : State) (range : Range)
    (hfl : s.flushList = []) :
    (flushCommit (clearCacheRange s range)).regions =
      s.regions.filter (fun reg => !overlapsB reg.covered range) := by
  have hpair := flushIdxs_pairwise s.regions range
  have hflush : (clearCacheRange s range).flushList = flushIdxs s.regions range := by
    simp [clearCacheRange, hfl]
  have hregs : (clearCacheRange s range).regions = s.regions := rfl
  unfold flushCommit
  split
  · next hemp =>
    rw [hflush] at hemp
    rw [List.isEmpty_iff] at hemp
    unfold flushIdxs at hemp
    rw [hregs]
    symm
    rw [List.filter_eq_self]
    intro reg hreg
    obtain ⟨i, hi, hget⟩ := List.getElem_of_mem hreg
    have hni := (List.filter_eq_nil_iff.1 hemp) i (List.mem_range.2 hi)
    simp only [List.getElem?_eq_getElem hi, hget] at hni
    simpa using hni
  · rw [foldl_eraseRegion_regions, hregs, hflush]
    rw [sortDesc_ascending _ hpair,
      dedupAdj_desc _ (List.pairwise_reverse.2 hpair),
      List.foldl_reverse]
    exact foldr_eraseIdx_flushIdxs s.regions range

/-- Witness for `clearCache_flushCommit_filters`: invalidating
`[195, 205)` on the two-region manager drops the second region and keeps
the first. -/
theorem clearCache_flushCommit_filters_witness :
    (flushCommit (clearCacheRange twoRegionState ⟨195, 205⟩)).regions =
      [⟨⟨100, 110⟩, 0, 0, [], [], [], [], []⟩] := by
  rw [clearCache_flushCommit_filters twoRegionState ⟨195, 205⟩ rfl]
  decide

/-- Boolean containment test on candidate `i` (the early-return test of
the `findRegion` scan). -/
def frContainsB (rs : List ExecRegion) (cr : Range) (i : Nat) : Bool :=
  match rs[i]? with
  | some reg => decide (reg.covered.containsR cr)
  | none => false

/-- Extension cost of candidate `i` (0 for an out-of-range index, which
the scan skips anyway). -/
def frCost (rs : List ExecRegion) (cr : Range) (i : Nat) : Nat :=
  ((rs[i]?).map (fun reg => extCost reg.covered cr)).getD 0

/-- Candidate `i` passes the budget gate `cost * E < available`. -/
def frGate (rs : List ExecRegion) (cr : Range) (tn td : Nat) (i : Nat) : Prop :=
  ∃ reg, rs[i]? = some reg ∧
    ratioFloor (extCost reg.covered cr) tn td < reg.available

lemma frScan_inl_of_find (rs : List ExecRegion) (cr : Range) (tn td : Nat) :
    ∀ (cands : List Nat) (bc br i₀ : Nat),
    cands.find? (frContainsB rs cr) = some i₀ →
    frScan rs cr tn td cands bc br = .inl i₀ := by
  intro cands
  induction cands with
  | nil => intro bc br i₀ h; simp at h
  | cons i is ih =>
    intro bc br i₀ h
    rw [List.find?_cons] at h
    cases hreg : rs[i]? with
    | none =>
      have hfb : frContainsB rs cr i = false := by simp [frContainsB, hreg]
      rw [hfb] at h
      simp only [cond_false] at h
      unfold frScan
      simp only [hreg]
      exact ih bc br i₀ h
    | some reg =>
      by_cases hc : reg.covered.containsR cr
      · have hfb : frContainsB rs cr i = true := by simp [frContainsB, hreg, hc]
        rw [hfb] at h
        simp only [cond_true, Option.some.injEq] at h
        unfold frScan
        simp only [hreg, if_pos hc]
        rw [h]
      · have hfb : frContainsB rs cr i = false := by simp [frContainsB, hreg, hc]
        rw [hfb] at h
        simp only [cond_false] at h
        unfold frScan
        simp only [hreg, if_neg hc]
        split
        · exact ih _ _ i₀ h
        · exact ih _ _ i₀ h

lemma frScan_inl_elim (rs : List ExecRegion) (cr : Range) (tn td : Nat) :
    ∀ (cands : List Nat) (bc br i : Nat),
    frScan rs cr tn td cands bc br = .inl i →
    i ∈ cands ∧ ∃ reg, rs[i]? = some reg ∧ reg.covered.containsR cr := by
  intro cands
  induction cands with
  | nil => intro bc br i h; simp [frScan] at h
  | cons j is ih =>
    intro bc br i h
    unfold frScan at h
    cases hreg : rs[j]? with
    | none =>
      simp only [hreg] at h
      obtain ⟨hm, hrest⟩ := ih _ _ _ h
      exact ⟨List.mem_cons_of_mem j hm, hrest⟩
    | some reg =>
      simp only [hreg] at h
      by_cases hc : reg.covered.containsR cr
      · rw [if_pos hc] at h
        cases h
        exact ⟨List.mem_cons_self j is, reg, hreg, hc⟩
      · rw [if_neg hc] at h
        split at h
        · obtain ⟨hm, hrest⟩ := ih _ _ _ h
          exact ⟨List.mem_cons_of_mem j hm, hrest⟩
        · obtain ⟨hm, hrest⟩ := ih _ _ _ h
          exact ⟨List.mem_cons_of_mem j hm, hrest⟩

lemma frScan_min (rs : List ExecRegion) (cr : Range) (tn td : Nat) :
    ∀ (cands : List Nat) (bc br : Nat),
    cands.find? (frContainsB rs cr) = none →
    (frScan rs cr tn td cands bc br = .inr (bc, br) ∧
      ∀ j ∈ cands, frGate rs cr tn td j → bc ≤ frCost rs cr j) ∨
    (∃ j, j ∈ cands ∧ frGate rs cr tn td j ∧
      frScan rs cr tn td cands bc br = .inr (frCost rs cr j, j) ∧
      frCost rs cr j < bc ∧
      ∀ k ∈ cands, frGate rs cr tn td k → frCost rs cr j ≤ frCost rs cr k) := by
  intro cands
  induction cands with
  | nil =>
    intro bc br _
    left
    exact ⟨rfl, by simp⟩
  | cons i is ih =>
    intro bc br hfind
    rw [List.find?_cons] at hfind
    cases hreg : rs[i]? with
    | none =>
      have hfb : frContainsB rs cr i = false := by simp [frContainsB, hreg]
      rw [hfb] at hfind
      simp only [cond_false] at hfind
      have hstep : frScan rs cr tn td (i :: is) bc br = frScan rs cr tn td is bc br := by
        conv_lhs => unfold frScan
        simp only [hreg]
      have hgate : ¬ frGate rs cr tn td i := by
        rintro ⟨reg, hr, _⟩; rw [hreg] at hr; cases hr
      rcases ih bc br hfind with ⟨ha, hmin⟩ | ⟨j, hmem, hg, hres, hlt, hmin⟩
      · left
        refine ⟨hstep ▸ ha, ?_⟩
        intro j hj hg
        rcases List.mem_cons.1 hj with rfl | hj
        · exact absurd hg hgate
        · exact hmin j hj hg
      · right
        refine ⟨j, List.mem_cons_of_mem i hmem, hg, hstep ▸ hres, hlt, ?_⟩
        intro k hk hgk
        rcases List.mem_cons.1 hk with rfl | hk
        · exact absurd hgk hgate
        · exact hmin k hk hgk
    | some reg =>
      have hnc : ¬ reg.covered.containsR cr := by
        intro hc
        have : frContainsB rs cr i = true := by simp [frContainsB, hreg, hc]
        rw [this] at hfind
        simp at hfind
      have hfb : frContainsB rs cr i = false := by simp [frContainsB, hreg, hnc]
      rw [hfb] at hfind
      simp only [cond_false] at hfind
      have hcost : frCost rs cr i = extCost reg.covered cr := by
        simp [frCost, hreg]
      by_cases hcond : ratioFloor (extCost reg.covered cr) tn td < reg.available ∧
          extCost reg.covered cr < bc
      · have hstep : frScan rs cr tn td (i :: is) bc br =
            frScan rs cr tn td is (extCost reg.covered cr) i := by
          conv_lhs => unfold frScan
          simp only [hreg, if_neg hnc, if_pos hcond]
        have hgatei : frGate rs cr tn td i := ⟨reg, hreg, hcond.1⟩
        rcases ih (extCost reg.covered cr) i hfind with ⟨ha, hmin⟩ | ⟨j, hmem, hg, hres, hlt, hmin⟩
        · right
          refine ⟨i, List.mem_cons_self i is, hgatei, ?_, by omega, ?_⟩
          · rw [hstep, ha, hcost]
          · intro k hk hgk
            rcases List.mem_cons.1 hk with rfl | hk
            · omega
            · have := hmin k hk hgk
              omega
        · right
          refine ⟨j, List.mem_cons_of_mem i hmem, hg, hstep ▸ hres, by omega, ?_⟩
          intro k hk hgk
          rcases List.mem_cons.1 hk with rfl | hk
          · omega
          · exact hmin k hk hgk
      · have hstep : frScan rs cr tn td (i :: is) bc br = frScan rs cr tn td is bc br := by
          conv_lhs => unfold frScan
          simp only [hreg, if_neg hnc, if_neg hcond]
        have hkey : frGate rs cr tn td i → bc ≤ frCost rs cr i := by
          rintro ⟨reg2, hr2, hg2⟩
          rw [hreg] at hr2
          cases hr2
          rw [hcost]
          omega
        rcases ih bc br hfind with ⟨ha, hmin⟩ | ⟨j, hmem, hg, hres, hlt, hmin⟩
        · left
          refine ⟨hstep ▸ ha, ?_⟩
          intro j hj hgj
          rcases List.mem_cons.1 hj with rfl | hj
          · exact hkey hgj
          · exact hmin j hj hgj
        · right
          refine ⟨j, List.mem_cons_of_mem i hmem, hg, hstep ▸ hres, hlt, ?_⟩
          intro k hk hgk
          rcases List.mem_cons.1 hk with rfl | hk
          · have := hkey hgk
            omega
          · exact hmin k hk hgk

lemma candList_mem (low len i : Nat) :
    i ∈ candList low len ↔ low ≤ i ∧ i < low + 3 ∧ i < len := by
  simp [candList, List.mem_range'_1, and_assoc]

lemma searchLoop_lt_high (rs : List ExecRegion) (addr : Nat) :
    ∀ fuel low high, low < high → searchLoop rs addr fuel low high < high := by
  intro fuel
  induction fuel with
  | zero => intro low high h; simpa [searchLoop] using h
  | succ fuel ih =>
    intro low high h
    rw [searchLoop_succ]
    split
    · exact h
    · next hs =>
      split
      · exact h
      · split
        · next h1 =>
          have := ih low ((low + high) / 2) (by omega)
          omega
        · split
          · next h2 =>
            exact ih ((low + high) / 2) high (by omega)
          · next h2 =>
            omega

lemma insertAt_getElem_self {α : Type} (n : Nat) (x : α) (l : List α)
    (h : n ≤ l.length) : (insertAt n x l)[n]? = some x := by
  unfold insertAt
  rw [List.getElem?_append]
  rw [List.length_take]
  have : n ⊓ l.length = n := by omega
  rw [this]
  simp

lemma insertAt_getElem_gt {α : Type} (n : Nat) (x : α) (l : List α)
    (h : l.length < n) : (insertAt n x l)[n]? = none := by
  unfold insertAt
  rw [List.take_of_length_le (by omega), List.drop_eq_nil_of_le (by omega)]
  rw [List.getElem?_append]
  simp only [if_neg (by omega : ¬ n < l.length)]
  rw [List.getElem?_eq_none]
  simp
  omega

lemma findRegion_spec (s : State) (cr : Range) :
    (findRegion s cr).2.searchCache = (cr.start, (findRegion s cr).1) ∧
    (∀ reg, (findRegion s cr).2.regions[(findRegion s cr).1]? = some reg →
      reg.covered.containsR cr) ∧
    (findRegion s cr).2.flushList = s.flushList ∧
    (findRegion s cr).2.total_translated_size = s.total_translated_size ∧
    (findRegion s cr).2.total_translation_size = s.total_translation_size ∧
    (findRegion s cr).2.analysisCache = s.analysisCache := by
  obtain ⟨hre, hfl, htd, htn, hac⟩ := searchRegion_fields s cr.start
  unfold findRegion
  cases hscan : frScan (searchRegion s cr.start).2.regions cr
      (searchRegion s cr.start).2.total_translation_size
      (searchRegion s cr.start).2.total_translated_size
      (candList (searchRegion s cr.start).1 (searchRegion s cr.start).2.regions.length)
      4294967295 (searchRegion s cr.start).2.regions.length with
  | inl i =>
    simp only [hscan]
    obtain ⟨_, reg', hreg', hcont'⟩ := frScan_inl_elim _ _ _ _ _ _ _ _ hscan
    refine ⟨trivial, ?_, hfl, htd, htn, hac⟩
    intro reg hreg
    rw [hreg'] at hreg
    cases hreg
    exact hcont'
  | inr br2 =>
    simp only [hscan]
    cases hb : (searchRegion s cr.start).2.regions[br2.2]? with
    | some reg0 =>
      simp only [hb]
      refine ⟨trivial, ?_, hfl, htd, htn, hac⟩
      intro reg hreg
      have hlt : br2.2 < (searchRegion s cr.start).2.regions.length := by
        rw [List.getElem?_eq_some] at hb
        exact hb.1
      rw [List.getElem?_set_self (by simpa using hlt)] at hreg
      cases hreg
      constructor
      · simp only []
        split <;> omega
      · simp only []
        split <;> omega
    | none =>
      simp only [hb]
      refine ⟨trivial, ?_, hfl, htd, htn, hac⟩
      intro reg hreg
      rcases le_or_lt
          (insertPosAux cr.start
            ((searchRegion s cr.start).2.regions.drop (searchRegion s cr.start).1)
            (searchRegion s cr.start).1)
          (searchRegion s cr.start).2.regions.length with hle | hgt
      · rw [insertAt_getElem_self _ _ _ hle] at hreg
        cases hreg
        exact ⟨le_refl _, le_refl _⟩
      · rw [insertAt_getElem_gt _ _ _ hgt] at hreg
        cases hreg

/-- Claim C5: `findRegion` follows the allocation policy in order.  With
`low = searchRegion(codeRange.start)` and the candidate window `low,
low+1, low+2` (bounded by the region count): (A) the first candidate
containing the whole code range is chosen, mutating nothing but the
search cache; (B) otherwise, if some candidate passes the budget gate
`cost × E < available`, a qualifying candidate of minimal extension cost
`max(0, cr.end − covered.end) + max(0, covered.start − cr.start)` is
chosen and its covered range becomes the union with the code range; (C)
otherwise a new region (covering exactly the code range, `translated =
0`, `available = 0`, no buffers) is inserted at the sorted position.
The bound `hb` keeps every candidate's cost below the `0xFFFFFFFF`
sentinel the C++ scan initialises `best_cost` with. -/
theorem findRegion_policy (s : State) (cr : Range) (low : Nat) (s₁ : State)
    (hsr : searchRegion s cr.start = (low, s₁))
    (hb : ∀ i ∈ candList low s₁.regions.length, frCost s₁.regions cr i < 4294967295) :
    (∀ i₀, (candList low s₁.regions.length).find? (frContainsB s₁.regions cr) = some i₀ →
      findRegion s cr = (i₀, { s₁ with searchCache := (cr.start, i₀) })) ∧
    ((candList low s₁.regions.length).find? (frContainsB s₁.regions cr) = none →
      (∃ j ∈ candList low s₁.regions.length,
        frGate s₁.regions cr s₁.total_translation_size s₁.total_translated_size j) →
      ∃ b regb, b ∈ candList low s₁.regions.length ∧ s₁.regions[b]? = some regb ∧
        frGate s₁.regions cr s₁.total_translation_size s₁.total_translated_size b ∧
        (∀ k ∈ candList low s₁.regions.length,
          frGate s₁.regions cr s₁.total_translation_size s₁.total_translated_size k →
          frCost s₁.regions cr b ≤ frCost s₁.regions cr k) ∧
        findRegion s cr = (b, { s₁ with
          regions := s₁.regions.set b { regb with covered :=
            ⟨min regb.covered.start cr.start, max regb.covered.stop cr.stop⟩ },
          searchCache := (cr.start, b) })) ∧
    ((candList low s₁.regions.length).find? (frContainsB s₁.regions cr) = none →
      (∀ j ∈ candList low s₁.regions.length,
        ¬ frGate s₁.regions cr s₁.total_translation_size s₁.total_translated_size j) →
      findRegion s cr = (insertPosAux cr.start (s₁.regions.drop low) low,
        { s₁ with
          regions :=
            (insertAt (insertPosAux cr.start (s₁.regions.drop low) low)
              (newRegion cr) s₁.regions),
          searchCache := (cr.start,
            insertPosAux cr.start (s₁.regions.drop low) low) })) := by
  refine ⟨?_, ?_, ?_⟩
  · intro i₀ hfind
    have hscan := frScan_inl_of_find s₁.regions cr s₁.total_translation_size
      s₁.total_translated_size (candList low s₁.regions.length) 4294967295
      s₁.regions.length i₀ hfind
    unfold findRegion
    simp only [hsr, hscan]
  · intro hfind hq
    rcases frScan_min s₁.regions cr s₁.total_translation_size s₁.total_translated_size
        (candList low s₁.regions.length) 4294967295 s₁.regions.length hfind with
      ⟨ha, hmin⟩ | ⟨j, hjmem, hjg, hres, hlt, hmin⟩
    · obtain ⟨j, hjmem, hjg⟩ := hq
      have := hmin j hjmem hjg
      have := hb j hjmem
      omega
    · obtain ⟨regj, hregj, hgj⟩ := hjg
      have hcostj : frCost s₁.regions cr j = extCost regj.covered cr := by
        simp [frCost, hregj]
      refine ⟨j, regj, hjmem, hregj, ⟨regj, hregj, hgj⟩, hmin, ?_⟩
      unfold findRegion
      simp only [hsr, hres, hregj]
      have hmineq : (if cr.start < regj.covered.start then cr.start
          else regj.covered.start) = min regj.covered.start cr.start := by
        rw [Nat.min_def]; split <;> split <;> omega
      have hmaxeq : (if regj.covered.stop < cr.stop then cr.stop
          else regj.covered.stop) = max regj.covered.stop cr.stop := by
        rw [Nat.max_def]; split <;> split <;> omega
      rw [hmineq, hmaxeq]
  · intro hfind hng
    rcases frScan_min s₁.regions cr s₁.total_translation_size s₁.total_translated_size
        (candList low s₁.regions.length) 4294967295 s₁.regions.length hfind with
      ⟨ha, hmin⟩ | ⟨j, hjmem, hjg, hres, hlt, hmin⟩
    · have hnone : s₁.regions[s₁.regions.length]? = none :=
        List.getElem?_eq_none (le_refl _)
      unfold findRegion
      simp only [hsr, ha, hnone]
    · exact absurd hjg (hng j hjmem)

/-- One-region manager whose search cache already holds the queried
address, used to witness the allocation policy. -/
def oneRegionState : State :=
  ⟨[⟨⟨100, 200⟩, 0, 0, [], [], [], [], []⟩], [], 1, 1, (120, 0), []⟩

/-- Witness for `findRegion_policy`: the code range `[120, 130)` is
contained in the only region, which is chosen without mutating the
regions array. -/
theorem findRegion_policy_witness :
    findRegion oneRegionState ⟨120, 130⟩ =
      (0, { oneRegionState with searchCache := (120, 0) }) :=
  (findRegion_policy oneRegionState ⟨120, 130⟩ 0 oneRegionState rfl
    (by decide)).1 0 (by decide)

lemma searchLoop_weak (rs : List ExecRegion) (addr : Nat)
    (hwf : ∀ reg ∈ rs, reg.covered.start ≤ reg.covered.stop) :
    ∀ fuel low high, low < high →
    (low = 0 ∨ startLE rs low addr) →
    low ≤ searchLoop rs addr fuel low high ∧
    searchLoop rs addr fuel low high < high ∧
    (searchLoop rs addr fuel low high = 0 ∨
      startLE rs (searchLoop rs addr fuel low high) addr) := by
  intro fuel
  induction fuel with
  | zero =>
    intro low high h hlow
    exact ⟨le_refl low, h, hlow⟩
  | succ fuel ih =>
    intro low high h hlow
    rw [searchLoop_succ]
    split
    · exact ⟨le_refl low, h, hlow⟩
    · next hs =>
      split
      · exact ⟨le_refl low, h, hlow⟩
      · next reg hregm =>
        split
        · next h1 =>
          obtain ⟨ha, hb2, hc⟩ := ih low ((low + high) / 2) (by omega) hlow
          exact ⟨ha, by omega, hc⟩
        · next h1 =>
          have hmem : reg ∈ rs := by
            rw [List.getElem?_eq_some] at hregm
            obtain ⟨hh, he⟩ := hregm
            exact he ▸ List.getElem_mem hh
          split
          · next h2 =>
            have hstart : startLE rs ((low + high) / 2) addr := by
              refine ⟨reg, ?_, ?_⟩
              · rw [List.getElem?_eq_some] at hregm ⊢
                exact hregm
              · have := hwf reg hmem
                omega
            obtain ⟨ha, hb2, hc⟩ := ih ((low + high) / 2) high (by omega) (Or.inr hstart)
            exact ⟨by omega, hb2, hc⟩
          · next h2 =>
            refine ⟨by omega, by omega, Or.inr ⟨reg, ?_, by omega⟩⟩
            rw [List.getElem?_eq_some] at hregm ⊢
            exact hregm

lemma insertPosAux_spec (a : Nat) :
    ∀ (l : List ExecRegion) (i : Nat),
    i ≤ insertPosAux a l i ∧ insertPosAux a l i ≤ i + l.length ∧
    (∀ k reg, k < insertPosAux a l i - i → l[k]? = some reg →
      reg.covered.start ≤ a) ∧
    (∀ reg, l[insertPosAux a l i - i]? = some reg → a < reg.covered.start) := by
  intro l
  induction l with
  | nil =>
    intro i
    refine ⟨le_refl i, by simp [insertPosAux], ?_, ?_⟩
    · intro k reg hk hreg
      simp [insertPosAux] at hk
    · intro reg hreg
      simp at hreg
  | cons r t ih =>
    intro i
    by_cases h : a < r.covered.start
    · have hres : insertPosAux a (r :: t) i = i := by simp [insertPosAux, h]
      rw [hres]
      refine ⟨le_refl i, by omega, ?_, ?_⟩
      · intro k reg hk hreg; omega
      · intro reg hreg
        rw [Nat.sub_self, List.getElem?_cons_zero] at hreg
        cases hreg
        omega
    · have hres : insertPosAux a (r :: t) i = insertPosAux a t (i + 1) := by
        simp [insertPosAux, h]
      obtain ⟨ha, hb2, hc, hd⟩ := ih (i + 1)
      rw [hres]
      refine ⟨by omega, by simp only [List.length_cons]; omega, ?_, ?_⟩
      · intro k reg hk hreg
        cases k with
        | zero =>
          rw [List.getElem?_cons_zero] at hreg
          cases hreg
          omega
        | succ k' =>
          rw [List.getElem?_cons_succ] at hreg
          exact hc k' reg (by omega) hreg
      · intro reg hreg
        have hg1 : 1 ≤ insertPosAux a t (i + 1) - i := by omega
        rcases Nat.exists_eq_add_of_le hg1 with ⟨m, hm⟩
        have : insertPosAux a t (i + 1) - i = (insertPosAux a t (i + 1) - (i + 1)) + 1 := by
          omega
        rw [this, List.getElem?_cons_succ] at hreg
        exact hd reg hreg

/-- Four-block run from a fresh manager: two far-apart writes make one
large region with a small budget, a third write misses the budget gate
and opens a second region, and the fourth block straddles the first
region's end while both candidates fail their tests. -/
def overlapTrace3 : Option State :=
  (writeBasicBlock initState [⟨4000, 10⟩]).bind
    (fun s => (writeBasicBlock s [⟨8000, 10⟩]).bind
      (fun s2 => writeBasicBlock s2 [⟨8091, 10⟩]))

/-- Final state of the run: the fourth basic block `[4005, 8100)`. -/
def overlapTrace4 : Option State :=
  overlapTrace3.bind (fun s => writeBasicBlock s [⟨4005, 4095⟩])

/-- Counterexample to claim C1.  After three `writeBasicBlock` calls the
manager holds two ordered disjoint regions; the fourth call takes the
new-region path of `findRegion` (the region count grows from 2 to 3) and
inserts a region `[4005, 8100)` that overlaps both neighbours, so the
reachable state violates `regions[i].covered.end ≤
regions[i+1].covered.start` (while remaining sorted by `covered.start`). -/
theorem regions_overlap_reachable_cex :
    overlapTrace3.map (fun s => (s.regions.length, regionsOrderedB s.regions)) =
      some (2, true) ∧
    overlapTrace4.map (fun s => (s.regions.length, regionsOrderedB s.regions)) =
      some (3, false) ∧
    overlapTrace4.map
        (fun s => s.regions.map (fun reg => (reg.covered.start, reg.covered.stop))) =
      some [(4000, 8010), (4005, 8100), (8091, 8101)] := by
  exact ⟨rfl, rfl, rfl⟩

/-- Amended claim C1: the global invariant fails (see
`regions_overlap_reachable_cex`: both the extension path and the
new-region path of `findRegion` can produce a covered range overlapping
a neighbour), but the new-region path does preserve sortedness by
`covered.start`: from any state whose regions are sorted by
`covered.start` (with non-degenerate ranges and a missed search cache),
when `findRegion` takes the new-region path — observable as the region
count growing by one — the insertion lands so that the array stays
sorted by `covered.start`. -/
theorem findRegion_insert_sorted (s : State) (cr : Range)
    (hsort : s.regions.Pairwise (fun a b => a.covered.start ≤ b.covered.start))
    (hwf : ∀ reg ∈ s.regions, reg.covered.start ≤ reg.covered.stop)
    (hmiss : s.searchCache.1 ≠ cr.start)
    (hnew : (findRegion s cr).2.regions.length = s.regions.length + 1) :
    (findRegion s cr).2.regions.Pairwise
      (fun a b => a.covered.start ≤ b.covered.start) := by
  have hs₁ := searchRegion_fields s cr.start
  set low := (searchRegion s cr.start).1 with hlowdef
  -- facts about the binary-search anchor
  have hlowfact : low = 0 ∨
      (startLE s.regions low cr.start ∧ low < s.regions.length) := by
    rw [hlowdef]
    unfold searchRegion
    by_cases hlen : s.regions.length = 0
    · simp [hlen]
    · rw [if_neg hlen, if_neg hmiss]
      obtain ⟨_, hlt, hor⟩ := searchLoop_weak s.regions cr.start hwf
        s.regions.length 0 s.regions.length (by omega) (Or.inl rfl)
      rcases hor with h0 | hst
      · exact Or.inl h0
      · exact Or.inr ⟨hst, hlt⟩
  set ins := insertPosAux cr.start (s.regions.drop low) low with hinsdef
  obtain ⟨hins1, hins2, hins3, hins4⟩ := insertPosAux_spec cr.start (s.regions.drop low) low
  rw [← hinsdef] at hins1 hins2 hins3 hins4
  have hget := List.pairwise_iff_get.1 hsort
  -- everything before the insertion point starts at or before cr.start
  have hbefore : ∀ j reg, j < ins → s.regions[j]? = some reg →
      reg.covered.start ≤ cr.start := by
    intro j reg hj hreg
    rcases Nat.lt_or_ge j low with hjl | hjl
    · rcases hlowfact with h0 | ⟨⟨regl, hregl, hle⟩, _⟩
      · omega
      · rw [List.getElem?_eq_some] at hreg hregl
        obtain ⟨hj1, hj2⟩ := hreg
        obtain ⟨hl1, hl2⟩ := hregl
        have := hget ⟨j, hj1⟩ ⟨low, hl1⟩ hjl
        simp only [List.get_eq_getElem] at this
        rw [hj2, hl2] at this
        omega
    · refine hins3 (j - low) reg (by omega) ?_
      rw [List.getElem?_drop]
      have : low + (j - low) = j := by omega
      rw [this]
      exact hreg
  -- everything from the insertion point on starts after cr.start
  have hafter : ∀ j reg, ins ≤ j → s.regions[j]? = some reg →
      cr.start ≤ reg.covered.start := by
    intro j reg hj hreg
    rcases Nat.eq_or_lt_of_le hj with hje | hlt
    · have hdrop : (s.regions.drop low)[ins - low]? = some reg := by
        rw [List.getElem?_drop]
        have h3 : low + (ins - low) = j := by omega
        rw [h3]
        exact hreg
      have := hins4 reg hdrop
      omega
    · have hjlen : j < s.regions.length := by
        rw [List.getElem?_eq_some] at hreg
        exact hreg.1
      have hinslen : ins < s.regions.length := by omega
      obtain ⟨regi, hregi⟩ : ∃ regi, s.regions[ins]? = some regi :=
        ⟨s.regions[ins], List.getElem?_eq_getElem hinslen⟩
      have h1 : (s.regions.drop low)[ins - low]? = some regi := by
        rw [List.getElem?_drop]
        have : low + (ins - low) = ins := by omega
        rw [this]
        exact hregi
      have h2 := hins4 regi h1
      rw [List.getElem?_eq_some] at hreg hregi
      obtain ⟨hj1, hj2⟩ := hreg
      obtain ⟨hi1, hi2⟩ := hregi
      have := hget ⟨ins, hi1⟩ ⟨j, hj1⟩ hlt
      simp only [List.get_eq_getElem] at this
      rw [hj2, hi2] at this
      omega
  -- identify the branch taken and prove sortedness of the insertion
  unfold findRegion at hnew ⊢
  cases hscan : frScan (searchRegion s cr.start).2.regions cr
      (searchRegion s cr.start).2.total_translation_size
      (searchRegion s cr.start).2.total_translated_size
      (candList (searchRegion s cr.start).1 (searchRegion s cr.start).2.regions.length)
      4294967295 (searchRegion s cr.start).2.regions.length with
  | inl i =>
    simp only [hscan] at hnew
    rw [hs₁.1] at hnew
    omega
  | inr br2 =>
    simp only [hscan] at hnew ⊢
    cases hb : (searchRegion s cr.start).2.regions[br2.2]? with
    | some reg0 =>
      simp only [hb] at hnew
      simp only [List.length_set] at hnew
      rw [hs₁.1] at hnew
      omega
    | none =>
      simp only [hb]
      simp only [hs₁.1, ← hlowdef, ← hinsdef]
      unfold insertAt
      rw [List.pairwise_append]
      refine ⟨List.Pairwise.sublist (List.take_sublist ins s.regions) hsort, ?_, ?_⟩
      · rw [List.pairwise_cons]
        refine ⟨?_, List.Pairwise.sublist (List.drop_sublist ins s.regions) hsort⟩
        intro b hbmem
        obtain ⟨m, hm, hmget⟩ := List.getElem_of_mem hbmem
        have : s.regions[ins + m]? = some b := by
          rw [← List.getElem?_drop]
          rw [List.getElem?_eq_getElem hm, hmget]
        exact hafter (ins + m) b (by omega) this
      · intro p hp b hbmem
        obtain ⟨k, hk, hkget⟩ := List.getElem_of_mem hp
        have hklen : k < s.regions.length := by
          rw [List.length_take] at hk
          omega
        have hkins : k < ins := by
          rw [List.length_take] at hk
          omega
        have hpk : s.regions[k]? = some p := by
          rw [List.getElem?_eq_getElem hklen]
          rw [← hkget, List.getElem_take]
        have hple := hbefore k p hkins hpk
        rcases List.mem_cons.1 hbmem with rfl | hbm
        · exact hple
        · obtain ⟨m, hm, hmget⟩ := List.getElem_of_mem hbm
          have : s.regions[ins + m]? = some b := by
            rw [← List.getElem?_drop]
            rw [List.getElem?_eq_getElem hm, hmget]
          have := hafter (ins + m) b (by omega) this
          omega

/-- Witness for `findRegion_insert_sorted`: adding the disjoint block
`[300, 310)` to the two-region manager takes the new-region path (the
gate fails on zero budgets) and the three regions stay sorted by start. -/
theorem findRegion_insert_sorted_witness :
    (findRegion twoRegionState ⟨300, 310⟩).2.regions.Pairwise
      (fun a b => a.covered.start ≤ b.covered.start) :=
  findRegion_insert_sorted twoRegionState ⟨300, 310⟩ (by decide) (by decide)
    (by decide) (by decide)

lemma maxFit_le (patches : List Patch) : ∀ b, maxFit patches b ≤ patches.length := by
  induction patches with
  | nil => intro b; simp [maxFit]
  | cons p ps ih =>
    intro b
    unfold maxFit
    split
    · have := ih (b - p.instSize)
      simp only [List.length_cons]
      omega
    · simp

lemma writeSequence_spec (blk : ExecBlock) (patches : List Patch) (ty : SeqType)
    (res : SeqWriteResult) (h : writeSequence blk patches ty = some res) :
    1 ≤ res.patchWritten ∧ res.patchWritten ≤ patches.length ∧
    res.block.seqs[res.seqID]? =
      some (blk.insts.length, blk.insts.length + res.patchWritten - 1) := by
  unfold writeSequence at h
  by_cases hemp : patches.isEmpty
  · rw [if_pos hemp] at h; cases h
  · rw [if_neg hemp] at h
    dsimp only at h
    have hlen : 1 ≤ patches.length := by
      cases patches with
      | nil => simp at hemp
      | cons a t => simp
    have hk0le : maxFit patches (execBlockCapacity - blk.used) ≤ patches.length :=
      maxFit_le patches _
    by_cases hins : blk.insts.isEmpty
    · rw [if_pos hins] at h
      have hk : ¬ (max 1 (maxFit patches (execBlockCapacity - blk.used)) = 0) := by
        have := Nat.le_max_left 1 (maxFit patches (execBlockCapacity - blk.used))
        omega
      rw [if_neg hk] at h
      cases h
      dsimp only
      refine ⟨Nat.le_max_left _ _, by omega, ?_⟩
      rw [List.getElem?_concat_length]
    · rw [if_neg hins] at h
      by_cases hk : maxFit patches (execBlockCapacity - blk.used) = 0
      · rw [if_pos hk] at h; cases h
      · rw [if_neg hk] at h
        cases h
        dsimp only
        refine ⟨by omega, hk0le, ?_⟩
        rw [List.getElem?_concat_length]

lemma writeSequence_fresh (patches : List Patch) (ty : SeqType)
    (h : patches ≠ []) : ∃ res, writeSequence freshExecBlock patches ty = some res := by
  have h1 : ¬ (patches.isEmpty = true) := by
    cases patches with
    | nil => simp at h
    | cons a t => simp
  have h2 : ¬ (max 1 (maxFit patches (execBlockCapacity - freshExecBlock.used)) = 0) := by
    have := Nat.le_max_left 1 (maxFit patches (execBlockCapacity - freshExecBlock.used))
    omega
  unfold writeSequence
  rw [if_neg h1]
  dsimp only
  rw [if_pos (show freshExecBlock.insts.isEmpty = true from rfl)]
  rw [if_neg h2]
  exact ⟨_, rfl⟩

lemma placeSeq_spec (patches : List Patch) (ty : SeqType) (hne : patches ≠ []) :
    ∀ blocks : List ExecBlock,
    ∃ pr blk st, placeSeq patches ty blocks = some pr ∧
      pr.blocks[pr.blockIdx]? = some blk ∧
      blk.seqs[pr.seqID]? = some (st, st + pr.patchWritten - 1) ∧
      1 ≤ pr.patchWritten ∧ pr.patchWritten ≤ patches.length ∧
      pr.blocks ≠ [] := by
  intro blocks
  induction blocks with
  | nil =>
    obtain ⟨res, hres⟩ := writeSequence_fresh patches ty hne
    obtain ⟨h1, h2, h3⟩ := writeSequence_spec _ _ _ _ hres
    refine ⟨⟨[res.block], 0, res.seqID, res.patchWritten, res.bytesWritten⟩,
      res.block, freshExecBlock.insts.length, ?_, by simp, h3, h1, h2, by simp⟩
    unfold placeSeq
    rw [hres]
  | cons b bs ih =>
    cases hw : writeSequence b patches ty with
    | some res =>
      obtain ⟨h1, h2, h3⟩ := writeSequence_spec _ _ _ _ hw
      refine ⟨⟨res.block :: bs, 0, res.seqID, res.patchWritten, res.bytesWritten⟩,
        res.block, b.insts.length, ?_, by simp, h3, h1, h2, by simp⟩
      unfold placeSeq
      rw [hw]
    | none =>
      obtain ⟨pr, blk, st, hpr, hblk, hse, hp1, hp2, hpne⟩ := ih
      refine ⟨⟨b :: pr.blocks, pr.blockIdx + 1, pr.seqID, pr.patchWritten,
        pr.bytesWritten⟩, blk, st, ?_, by simpa using hblk, hse, hp1, hp2, by simp⟩
      unfold placeSeq
      rw [hw, hpr]

lemma icUpds_spec (B : List Patch) (patchIdx startID blockIdx : Nat) :
    ∀ k, patchIdx + k ≤ B.length →
    ∃ ups, icUpds B patchIdx startID blockIdx k = some ups ∧
      ∀ j, j < k → ∃ p, B[patchIdx + j]? = some p ∧ ∃ v, (p.address, v) ∈ ups := by
  intro k
  induction k with
  | zero =>
    intro _
    exact ⟨[], rfl, by omega⟩
  | succ k ih =>
    intro hle
    obtain ⟨ups, hups, hcov⟩ := ih (by omega)
    obtain ⟨p, hp⟩ : ∃ p, B[patchIdx + k]? = some p :=
      ⟨B.get ⟨patchIdx + k, by omega⟩, List.getElem?_eq_getElem (by omega)⟩
    refine ⟨ups ++ [(p.address, ⟨blockIdx, startID + k⟩)], ?_, ?_⟩
    · unfold icUpds
      rw [hups, hp]
    · intro j hj
      rcases Nat.lt_or_ge j k with hjk | hjk
      · obtain ⟨q, hq, v, hv⟩ := hcov j hjk
        exact ⟨q, hq, v, List.mem_append_left _ hv⟩
      · have : j = k := by omega
        subst this
        exact ⟨p, hp, ⟨blockIdx, startID + j⟩, List.mem_append_right _ (by simp)⟩

lemma writeLoop_succ (basicBlock : List Patch) (patchEnd bbIdx fuel : Nat)
    (reg : ExecRegion) (patchIdx translated translation : Nat) :
    writeLoop basicBlock patchEnd bbIdx (fuel + 1) reg patchIdx translated translation =
      if patchIdx < patchEnd then
        match placeSeq ((basicBlock.take patchEnd).drop patchIdx)
            ⟨decide (patchIdx = 0), decide (patchEnd = basicBlock.length)⟩ reg.blocks with
        | none => none
        | some pr =>
          match pr.blocks[pr.blockIdx]? with
          | none => none
          | some blk =>
            match blk.seqs[pr.seqID]? with
            | none => none
            | some se =>
              match basicBlock[patchIdx]? with
              | none => none
              | some p0 =>
                match icUpds basicBlock patchIdx se.1 pr.blockIdx (se.2 + 1 - se.1) with
                | none => none
                | some ups =>
                  match basicBlock[patchIdx + pr.patchWritten - 1]? with
                  | none => none
                  | some pl =>
                    writeLoop basicBlock patchEnd bbIdx fuel
                      { reg with
                        blocks := pr.blocks,
                        sequenceCache := upsert reg.sequenceCache p0.address
                          ⟨pr.blockIdx, pr.seqID, bbIdx⟩,
                        instCache := ups.foldl (fun m kv => upsert m kv.1 kv.2)
                          reg.instCache }
                      (patchIdx + pr.patchWritten)
                      (translated + (pl.address + pl.instSize - p0.address))
                      (translation + pr.bytesWritten)
      else some (reg, translated, translation) := rfl

lemma writeLoop_spec (basicBlock : List Patch) (patchEnd bbIdx : Nat)
    (hpe : patchEnd ≤ basicBlock.length) :
    ∀ fuel patchIdx reg translated translation, patchEnd - patchIdx < fuel →
    ∃ reg' t tr,
      writeLoop basicBlock patchEnd bbIdx fuel reg patchIdx translated translation =
        some (reg', t, tr) ∧
      (∀ k, (alookup reg.instCache k).isSome → (alookup reg'.instCache k).isSome) ∧
      (∀ k, (alookup reg.sequenceCache k).isSome →
        (alookup reg'.sequenceCache k).isSome) ∧
      (∀ i, patchIdx ≤ i → i < patchEnd →
        ∃ p, basicBlock[i]? = some p ∧ (alookup reg'.instCache p.address).isSome) ∧
      (patchIdx < patchEnd →
        ∃ p, basicBlock[patchIdx]? = some p ∧
          (alookup reg'.sequenceCache p.address).isSome) ∧
      (patchIdx < patchEnd → reg'.blocks ≠ []) ∧
      (reg'.blocks = reg.blocks ∨ reg'.blocks ≠ []) ∧
      reg'.covered = reg.covered ∧ reg'.bbRegistry = reg.bbRegistry := by
  intro fuel
  induction fuel with
  | zero => intro patchIdx reg t0 tr0 hf; omega
  | succ fuel ih =>
    intro patchIdx reg t0 tr0 hf
    by_cases hlt : patchIdx < patchEnd
    · have hsubne : (basicBlock.take patchEnd).drop patchIdx ≠ [] := by
        have hlen : ((basicBlock.take patchEnd).drop patchIdx).length =
            patchEnd - patchIdx := by
          rw [List.length_drop, List.length_take]
          omega
        intro hcon
        rw [hcon] at hlen
        simp at hlen
        omega
      obtain ⟨pr, blk, st, hpr, hblk, hse, hk1, hk2, hbne⟩ :=
        placeSeq_spec ((basicBlock.take patchEnd).drop patchIdx)
          ⟨decide (patchIdx = 0), decide (patchEnd = basicBlock.length)⟩ hsubne reg.blocks
      have hsublen : ((basicBlock.take patchEnd).drop patchIdx).length =
          patchEnd - patchIdx := by
        rw [List.length_drop, List.length_take]
        omega
      have hkle : patchIdx + pr.patchWritten ≤ patchEnd := by
        rw [hsublen] at hk2
        omega
      have hcount : st + pr.patchWritten - 1 + 1 - st = pr.patchWritten := by omega
      obtain ⟨p0, hp0⟩ : ∃ p0, basicBlock[patchIdx]? = some p0 :=
        ⟨basicBlock.get ⟨patchIdx, by omega⟩, List.getElem?_eq_getElem (by omega)⟩
      obtain ⟨ups, hups, hcov⟩ := icUpds_spec basicBlock patchIdx st pr.blockIdx
        pr.patchWritten (by omega)
      obtain ⟨pl, hpl⟩ :
          ∃ pl, basicBlock[patchIdx + pr.patchWritten - 1]? = some pl :=
        ⟨basicBlock.get ⟨patchIdx + pr.patchWritten - 1, by omega⟩,
          List.getElem?_eq_getElem (by omega)⟩
      set reg₁ : ExecRegion := { reg with
        blocks := pr.blocks,
        sequenceCache := upsert reg.sequenceCache p0.address
          ⟨pr.blockIdx, pr.seqID, bbIdx⟩,
        instCache := ups.foldl (fun m kv => upsert m kv.1 kv.2) reg.instCache }
        with hreg₁
      have hstep :
          writeLoop basicBlock patchEnd bbIdx (fuel + 1) reg patchIdx t0 tr0 =
          writeLoop basicBlock patchEnd bbIdx fuel reg₁ (patchIdx + pr.patchWritten)
            (t0 + (pl.address + pl.instSize - p0.address)) (tr0 + pr.bytesWritten) := by
        rw [writeLoop_succ, if_pos hlt]
        simp only [hpr, hblk, hse, hp0, hcount, hups, hpl]
      obtain ⟨reg', t, tr, hres, c1, c2, c3, c4, c5, c6, c7, c8⟩ :=
        ih (patchIdx + pr.patchWritten) reg₁
          (t0 + (pl.address + pl.instSize - p0.address)) (tr0 + pr.bytesWritten)
          (by omega)
      have hinst1 : ∀ k, (alookup reg.instCache k).isSome →
          (alookup reg₁.instCache k).isSome := by
        intro k hk
        rw [hreg₁]
        exact alookup_foldl_upsert_isSome _ _ _ hk
      have hseq1 : ∀ k, (alookup reg.sequenceCache k).isSome →
          (alookup reg₁.sequenceCache k).isSome := by
        intro k hk
        rw [hreg₁]
        exact alookup_upsert_isSome _ _ _ _ hk
      refine ⟨reg', t, tr, by rw [hstep]; exact hres, ?_, ?_, ?_, ?_, ?_, ?_, ?_, ?_⟩
      · intro k hk
        exact c1 k (hinst1 k hk)
      · intro k hk
        exact c2 k (hseq1 k hk)
      · intro i hi1 hi2
        rcases Nat.lt_or_ge i (patchIdx + pr.patchWritten) with hi3 | hi3
        · obtain ⟨p, hp, v, hv⟩ := hcov (i - patchIdx) (by omega)
          have hip : basicBlock[i]? = some p := by
            have : patchIdx + (i - patchIdx) = i := by omega
            rwa [this] at hp
          refine ⟨p, hip, c1 p.address ?_⟩
          rw [hreg₁]
          exact alookup_foldl_upsert_mem _ _ _ ⟨v, hv⟩
        · exact c3 i hi3 hi2
      · intro _
        refine ⟨p0, hp0, c2 p0.address ?_⟩
        rw [hreg₁]
        simp only []
        rw [alookup_upsert_self]
        rfl
      · intro _
        rcases c6 with hc | hc
        · rw [hc, hreg₁]
          exact hbne
        · exact hc
      · right
        rcases c6 with hc | hc
        · rw [hc, hreg₁]
          exact hbne
        · exact hc
      · rw [c7, hreg₁]
      · rw [c8, hreg₁]
    · refine ⟨reg, t0, tr0, ?_, fun k h => h, fun k h => h, ?_, ?_, ?_, Or.inl rfl,
        rfl, rfl⟩
      · rw [writeLoop_succ, if_neg hlt]
      · intro i hi1 hi2
        omega
      · intro h
        omega
      · intro h
        omega

lemma writeBasicBlock_zero (s : State) (B : List Patch) (f l : Patch)
    (reg : ExecRegion) (r : Nat) (s₁ : State)
    (hh : B.head? = some f) (hl : B.getLast? = some l)
    (hfr : findRegion s ⟨f.address, l.address + l.instSize⟩ = (r, s₁))
    (hreg : s₁.regions[r]? = some reg)
    (hpe : truncIdx reg.sequenceCache B = 0) :
    writeBasicBlock s B = some s₁ := by
  unfold writeBasicBlock
  simp only [hh, hl, hfr, hreg, if_pos hpe]

lemma updateRegionStat_open (s : State) (r t : Nat) (reg : ExecRegion)
    (b0 : ExecBlock) (hreg : s.regions[r]? = some reg)
    (hb0 : reg.blocks[0]? = some b0) :
    ∃ s', updateRegionStat s r t = some s' ∧
      ∃ regF, s'.regions[r]? = some regF ∧
        s'.searchCache = s.searchCache ∧ regF.covered = reg.covered ∧
        regF.instCache = reg.instCache ∧ regF.sequenceCache = reg.sequenceCache := by
  have hrlen : r < s.regions.length := by
    rw [List.getElem?_eq_some] at hreg
    exact hreg.1
  unfold updateRegionStat
  simp only [hreg, hb0]
  refine ⟨_, rfl, ?_⟩
  refine ⟨_, List.getElem?_set_self (by simpa using hrlen), rfl, rfl, rfl, rfl⟩

lemma writeBasicBlock_pos (s : State) (B : List Patch) (f l : Patch)
    (reg : ExecRegion) (r : Nat) (s₁ : State)
    (hh : B.head? = some f) (hl : B.getLast? = some l)
    (hfr : findRegion s ⟨f.address, l.address + l.instSize⟩ = (r, s₁))
    (hreg : s₁.regions[r]? = some reg)
    (hpe : truncIdx reg.sequenceCache B ≠ 0) :
    ∃ s' regF, writeBasicBlock s B = some s' ∧
      s'.regions[r]? = some regF ∧
      s'.searchCache = s₁.searchCache ∧
      regF.covered = reg.covered ∧
      (∀ i, i < truncIdx reg.sequenceCache B →
        ∃ p, B[i]? = some p ∧ (alookup regF.instCache p.address).isSome) ∧
      (∃ p, B[0]? = some p ∧ (alookup regF.sequenceCache p.address).isSome) := by
  have hpelen : truncIdx reg.sequenceCache B ≤ B.length := List.findIdx_le_length _
  have hrlen : r < s₁.regions.length := by
    rw [List.getElem?_eq_some] at hreg
    exact hreg.1
  obtain ⟨reg₂, t, tr, hloop, c1, c2, c3, c4, c5, c6, c7, c8⟩ :=
    writeLoop_spec B (truncIdx reg.sequenceCache B)
      ((reg.bbRegistry ++
        [(⟨f.address, l.address + l.instSize⟩ : BBInfo)]).length - 1) hpelen
      (truncIdx reg.sequenceCache B + 1) 0
      { reg with bbRegistry := reg.bbRegistry ++
        [(⟨f.address, l.address + l.instSize⟩ : BBInfo)] } 0 0 (by omega)
  have hpos : 0 < truncIdx reg.sequenceCache B := by omega
  have hbne : reg₂.blocks ≠ [] := c5 hpos
  obtain ⟨b0, bs, hb0⟩ : ∃ b0 bs, reg₂.blocks = b0 :: bs := by
    cases hbs : reg₂.blocks with
    | nil => exact absurd hbs hbne
    | cons b0 bs => exact ⟨b0, bs, rfl⟩
  have hreg₂ : ({ s₁ with
      regions := s₁.regions.set r reg₂,
      total_translation_size := s₁.total_translation_size + tr,
      total_translated_size := s₁.total_translated_size + t } : State).regions[r]? =
      some reg₂ := by
    simp only []
    exact List.getElem?_set_self (by simpa using hrlen)
  have hb0get : reg₂.blocks[0]? = some b0 := by
    rw [hb0]
    exact List.getElem?_cons_zero
  have hwb : writeBasicBlock s B = updateRegionStat { s₁ with
      regions := s₁.regions.set r reg₂,
      total_translation_size := s₁.total_translation_size + tr,
      total_translated_size := s₁.total_translated_size + t } r t := by
    unfold writeBasicBlock
    simp only [hh, hl, hfr, hreg, if_neg hpe, hloop]
  obtain ⟨s', hupd, regF, hregF, hcache, hcov, hic, hsc⟩ :=
    updateRegionStat_open _ r t reg₂ b0 hreg₂ hb0get
  refine ⟨s', regF, by rw [hwb]; exact hupd, hregF, by rw [hcache], ?_, ?_, ?_⟩
  · rw [hcov, c7]
  · intro i hi
    obtain ⟨p, hp, hmem⟩ := c3 i (by omega) hi
    refine ⟨p, hp, ?_⟩
    rw [hic]
    exact hmem
  · obtain ⟨p, hp, hmem⟩ := c4 hpos
    refine ⟨p, hp, ?_⟩
    rw [hsc]
    exact hmem

lemma findRegion_isSome (s : State) (cr : Range)
    (hsc : s.regions = [] ∨ s.searchCache.2 < s.regions.length) :
    ∃ reg, (findRegion s cr).2.regions[(findRegion s cr).1]? = some reg := by
  have hlow : (searchRegion s cr.start).1 ≤ s.regions.length := by
    unfold searchRegion
    by_cases hlen : s.regions.length = 0
    · simp [hlen]
    · rw [if_neg hlen]
      by_cases hcache : s.searchCache.1 = cr.start
      · rw [if_pos hcache]
        rcases hsc with h | h
        · rw [h] at hlen
          simp at hlen
        · simp only []
          omega
      · rw [if_neg hcache]
        have := searchLoop_lt_high s.regions cr.start s.regions.length 0
          s.regions.length (by omega)
        simp only []
        omega
  unfold findRegion
  cases hscan : frScan (searchRegion s cr.start).2.regions cr
      (searchRegion s cr.start).2.total_translation_size
      (searchRegion s cr.start).2.total_translated_size
      (candList (searchRegion s cr.start).1 (searchRegion s cr.start).2.regions.length)
      4294967295 (searchRegion s cr.start).2.regions.length with
  | inl i =>
    obtain ⟨_, reg, hreg, _⟩ := frScan_inl_elim _ _ _ _ _ _ _ _ hscan
    refine ⟨reg, ?_⟩
    simp only [hscan]
    exact hreg
  | inr br2 =>
    cases hb : (searchRegion s cr.start).2.regions[br2.2]? with
    | some reg0 =>
      simp only [hscan, hb]
      have hlt : br2.2 < (searchRegion s cr.start).2.regions.length :=
        (List.getElem?_eq_some.1 hb).1
      exact ⟨_, List.getElem?_set_self (by simpa using hlt)⟩
    | none =>
      simp only [hscan, hb]
      refine ⟨newRegion cr, ?_⟩
      apply insertAt_getElem_self
      obtain ⟨h1, h2, _, _⟩ := insertPosAux_spec cr.start
        ((searchRegion s cr.start).2.regions.drop (searchRegion s cr.start).1)
        (searchRegion s cr.start).1
      rw [List.length_drop] at h2
      have hre := (searchRegion_fields s cr.start).1
      rw [hre] at h2 ⊢
      omega

/-- Claim C10: `writeBasicBlock` reads the first and last patch
unconditionally and indexes the patch list at `patchIdx + id − startID`
while recording the instruction cache; for any non-empty patch list all
these container accesses stay in bounds (the model returns `some`),
while the empty patch list is outside the operation's domain because
`front()` and `back()` would be out of bounds (the model returns
`none`).  The hypothesis keeps the one-slot search cache in bounds — the
invariant every reachable manager state satisfies. -/
theorem writeBasicBlock_domain (s : State) (B : List Patch)
    (hsc : s.regions = [] ∨ s.searchCache.2 < s.regions.length) :
    (B = [] → writeBasicBlock s B = none) ∧
    (B ≠ [] → (writeBasicBlock s B).isSome) := by
  constructor
  · intro h
    subst h
    rfl
  · intro h
    obtain ⟨f, hh⟩ : ∃ f, B.head? = some f := by
      cases B with
      | nil => simp at h
      | cons a t => exact ⟨a, rfl⟩
    obtain ⟨l, hl⟩ : ∃ l, B.getLast? = some l :=
      Option.isSome_iff_exists.1 (List.getLast?_isSome.2 h)
    rcases hfr : findRegion s ⟨f.address, l.address + l.instSize⟩ with ⟨r, s₁⟩
    obtain ⟨reg, hreg⟩ := findRegion_isSome s ⟨f.address, l.address + l.instSize⟩ hsc
    rw [hfr] at hreg
    by_cases hpe : truncIdx reg.sequenceCache B = 0
    · rw [writeBasicBlock_zero s B f l reg r s₁ hh hl hfr hreg hpe]
      rfl
    · obtain ⟨s', regF, hwb, _⟩ :=
        writeBasicBlock_pos s B f l reg r s₁ hh hl hfr hreg hpe
      rw [hwb]
      rfl

/-- Witness for `writeBasicBlock_domain`: on a fresh manager, the empty
patch list is rejected and a one-patch block is accepted. -/
theorem writeBasicBlock_domain_witness :
    writeBasicBlock initState [] = none ∧
    (writeBasicBlock initState [(⟨4000, 10⟩ : Patch)]).isSome :=
  ⟨(writeBasicBlock_domain initState [] (Or.inl rfl)).1 rfl,
   (writeBasicBlock_domain initState [⟨4000, 10⟩] (Or.inl rfl)).2 (by simp)⟩

/-- The truncation point `patchEnd` computed by `writeBasicBlock(s, B)`:
lowest patch index already present in the chosen region's sequence
cache, else the patch count. -/
def wbPatchEnd (s : State) (B : List Patch) : Nat :=
  match B.head?, B.getLast? with
  | some f, some l =>
    match (findRegion s ⟨f.address, l.address + l.instSize⟩).2.regions[
        (findRegion s ⟨f.address, l.address + l.instSize⟩).1]? with
    | some reg => truncIdx reg.sequenceCache B
    | none => 0
  | _, _ => 0

/-- Claim C2: after `writeBasicBlock(B)` returns on a non-empty patch
list with strictly increasing addresses, every patch below the computed
truncation point `patchEnd` has its address as a key of the instruction
cache of some region, and (when `patchEnd > 0`) the first patch's
address is a key of that region's sequence cache. -/
theorem writeBasicBlock_caches_patches (s : State) (B : List Patch) (s' : State)
    (hne : B ≠ [])
    (hinc : B.Pairwise (fun p q => p.address < q.address))
    (h : writeBasicBlock s B = some s') :
    ∃ reg ∈ s'.regions,
      (∀ i, i < wbPatchEnd s B →
        ∃ p, B[i]? = some p ∧ (alookup reg.instCache p.address).isSome) ∧
      (0 < wbPatchEnd s B →
        ∃ p, B.head? = some p ∧ (alookup reg.sequenceCache p.address).isSome) := by
  obtain ⟨f, hh⟩ : ∃ f, B.head? = some f := by
    cases B with
    | nil => simp at hne
    | cons a t => exact ⟨a, rfl⟩
  obtain ⟨l, hl⟩ : ∃ l, B.getLast? = some l :=
    Option.isSome_iff_exists.1 (List.getLast?_isSome.2 hne)
  rcases hfr : findRegion s ⟨f.address, l.address + l.instSize⟩ with ⟨r, s₁⟩
  have h' := h
  unfold writeBasicBlock at h'
  simp only [hh, hl, hfr] at h'
  cases hreg : s₁.regions[r]? with
  | none =>
    simp only [hreg] at h'
    exact Option.noConfusion h'
  | some reg =>
    simp only [hreg] at h'
    have hwbpe : wbPatchEnd s B = truncIdx reg.sequenceCache B := by
      unfold wbPatchEnd
      simp only [hh, hl, hfr, hreg]
    by_cases hpe : truncIdx reg.sequenceCache B = 0
    · rw [writeBasicBlock_zero s B f l reg r s₁ hh hl hfr hreg hpe] at h
      cases h
      refine ⟨reg, ?_, ?_, ?_⟩
      · obtain ⟨hlt, hget⟩ := List.getElem?_eq_some.1 hreg
        exact hget ▸ List.getElem_mem hlt
      · intro i hi
        rw [hwbpe, hpe] at hi
        omega
      · intro hi
        rw [hwbpe, hpe] at hi
        omega
    · obtain ⟨s'', regF, hwb, hregF, _, _, hic, hseq⟩ :=
        writeBasicBlock_pos s B f l reg r s₁ hh hl hfr hreg hpe
      rw [h] at hwb
      cases hwb
      refine ⟨regF, ?_, ?_, ?_⟩
      · obtain ⟨hlt, hget⟩ := List.getElem?_eq_some.1 hregF
        exact hget ▸ List.getElem_mem hlt
      · intro i hi
        rw [hwbpe] at hi
        exact hic i hi
      · intro _
        obtain ⟨p, hp, hmem⟩ := hseq
        refine ⟨p, ?_, hmem⟩
        rw [List.head?_eq_getElem?]
        exact hp

/-- Witness for `writeBasicBlock_caches_patches` on a fresh manager and
a one-patch block. -/
theorem writeBasicBlock_caches_patches_witness :
    ∃ reg ∈ ((writeBasicBlock initState
        [(⟨4000, 10⟩ : Patch)]).getD initState).regions,
      (∀ i, i < wbPatchEnd initState [(⟨4000, 10⟩ : Patch)] →
        ∃ p, [(⟨4000, 10⟩ : Patch)][i]? = some p ∧
          (alookup reg.instCache p.address).isSome) ∧
      (0 < wbPatchEnd initState [(⟨4000, 10⟩ : Patch)] →
        ∃ p, [(⟨4000, 10⟩ : Patch)].head? = some p ∧
          (alookup reg.sequenceCache p.address).isSome) :=
  writeBasicBlock_caches_patches initState [⟨4000, 10⟩] _ (by simp) (by simp) rfl

lemma writeBasicBlock_second (s' : State) (B : List Patch) (f l : Patch) (r : Nat)
    (regF : ExecRegion)
    (hh : B.head? = some f) (hl : B.getLast? = some l)
    (hsc : s'.searchCache = (f.address, r))
    (hreg : s'.regions[r]? = some regF)
    (hcov : regF.covered.containsR ⟨f.address, l.address + l.instSize⟩)
    (hseq : (alookup regF.sequenceCache f.address).isSome) :
    writeBasicBlock s' B = some s' := by
  have hrlen : r < s'.regions.length := (List.getElem?_eq_some.1 hreg).1
  have hlen0 : ¬ (s'.regions.length = 0) := by omega
  have hsr : searchRegion s' f.address = (r, s') := by
    unfold searchRegion
    rw [if_neg hlen0, if_pos (by rw [hsc])]
    rw [hsc]
  obtain ⟨rest, hcand⟩ : ∃ rest, candList r s'.regions.length = r :: rest := by
    unfold candList
    rw [show (3 : Nat) = 2 + 1 from rfl, List.range'_succ, List.filter_cons]
    rw [show decide (r < s'.regions.length) = true from decide_eq_true hrlen]
    exact ⟨_, rfl⟩
  have hscan : frScan s'.regions (⟨f.address, l.address + l.instSize⟩ : Range)
      s'.total_translation_size s'.total_translated_size
      (candList r s'.regions.length) 4294967295 s'.regions.length = .inl r := by
    rw [hcand]
    unfold frScan
    simp only [hreg, if_pos hcov]
  have hfr : findRegion s' ⟨f.address, l.address + l.instSize⟩ = (r, s') := by
    unfold findRegion
    simp only [hsr, hscan]
    rw [show ((⟨f.address, l.address + l.instSize⟩ : Range).start, r) =
      s'.searchCache from hsc.symm]
  obtain ⟨tl, hB⟩ : ∃ tl, B = f :: tl := by
    cases B with
    | nil => simp at hh
    | cons a t =>
      refine ⟨t, ?_⟩
      have : a = f := by
        have : some a = some f := hh
        cases this
        rfl
      rw [this]
  have htr : truncIdx regF.sequenceCache B = 0 := by
    rw [hB]
    unfold truncIdx
    rw [List.findIdx_cons, hseq]
    rfl
  exact writeBasicBlock_zero s' B f l regF r s' hh hl hfr hreg htr

/-- Claim C4: `writeBasicBlock` is idempotent.  After a successful
`writeBasicBlock(B)`, running it again finds the first patch address
already in the chosen region's sequence cache, computes `patchEnd = 0`,
and returns without changing the state: the second run returns exactly
the state the first produced. -/
theorem writeBasicBlock_idempotent (s : State) (B : List Patch) (s' : State)
    (hne : B ≠ []) (h : writeBasicBlock s B = some s') :
    writeBasicBlock s' B = some s' := by
  obtain ⟨f, hh⟩ : ∃ f, B.head? = some f := by
    cases B with
    | nil => simp at hne
    | cons a t => exact ⟨a, rfl⟩
  obtain ⟨l, hl⟩ : ∃ l, B.getLast? = some l :=
    Option.isSome_iff_exists.1 (List.getLast?_isSome.2 hne)
  rcases hfr : findRegion s ⟨f.address, l.address + l.instSize⟩ with ⟨r, s₁⟩
  have h' := h
  unfold writeBasicBlock at h'
  simp only [hh, hl, hfr] at h'
  have hspec := findRegion_spec s ⟨f.address, l.address + l.instSize⟩
  rw [hfr] at hspec
  cases hreg : s₁.regions[r]? with
  | none =>
    simp only [hreg] at h'
    exact Option.noConfusion h'
  | some reg =>
    simp only [hreg] at h'
    have hcov : reg.covered.containsR ⟨f.address, l.address + l.instSize⟩ :=
      hspec.2.1 reg hreg
    by_cases hpe : truncIdx reg.sequenceCache B = 0
    · rw [writeBasicBlock_zero s B f l reg r s₁ hh hl hfr hreg hpe] at h
      have hs' : s' = s₁ := by
        cases h
        rfl
      subst hs'
      obtain ⟨tl, hB⟩ : ∃ tl, B = f :: tl := by
        cases B with
        | nil => simp at hh
        | cons a t =>
          refine ⟨t, ?_⟩
          have : a = f := by
            have : some a = some f := hh
            cases this
            rfl
          rw [this]
      have hseq : (alookup reg.sequenceCache f.address).isSome := by
        by_contra hfalse
        rw [hB] at hpe
        unfold truncIdx at hpe
        rw [List.findIdx_cons] at hpe
        rw [Bool.not_eq_true] at hfalse
        rw [hfalse] at hpe
        simp at hpe
      exact writeBasicBlock_second s' B f l r reg hh hl hspec.1 hreg hcov hseq
    · obtain ⟨s'', regF, hwb, hregF, hcache2, hcovF, _, hseqF⟩ :=
        writeBasicBlock_pos s B f l reg r s₁ hh hl hfr hreg hpe
      rw [h] at hwb
      have hs' : s'' = s' := by
        cases hwb
        rfl
      subst hs'
      have hseq : (alookup regF.sequenceCache f.address).isSome := by
        obtain ⟨p, hp, hmem⟩ := hseqF
        have hp0 : B[0]? = some f := by
          rw [← List.head?_eq_getElem?]
          exact hh
        rw [hp0] at hp
        cases hp
        exact hmem
      refine writeBasicBlock_second s'' B f l r regF hh hl ?_ hregF
        (by rw [hcovF]; exact hcov) hseq
      rw [hcache2]
      exact hspec.1

theorem writeBasicBlock_idempotent_witness :
    writeBasicBlock ((writeBasicBlock initState [⟨4000, 10⟩]).getD initState) [⟨4000, 10⟩]
      = some ((writeBasicBlock initState [⟨4000, 10⟩]).getD initState) :=
  writeBasicBlock_idempotent initState [⟨4000, 10⟩]
    ((writeBasicBlock initState [⟨4000, 10⟩]).getD initState) (by decide) rfl

/-- Claim C3: for an address in a region's `instCache` but not in its
`sequenceCache` (with the spec's well-formedness of that region: the
cached instruction location, its block, the enclosing sequence, that
sequence's first instruction's address in `sequenceCache`, and the
registered basic block all resolve), `getSeqLoc` succeeds via the lazy
split: it returns a `SeqLoc` in the same block buffer the `instCache`
entry pointed into, caches it under the queried address, and appends to
`bbRegistry` a `BBInfo` starting at the address with the enclosing basic
block's inherited end. -/
theorem getSeqLoc_lazy_split (s : State) (addr : Nat) (r : Nat) (s₁ : State)
    (reg : ExecRegion) (il : InstLoc) (blk : ExecBlock) (esid : Nat)
    (se : Nat × Nat) (bbAddr : Nat) (exLoc : SeqLoc) (bb : BBInfo)
    (hsr : searchRegion s addr = (r, s₁))
    (hreg : s₁.regions[r]? = some reg)
    (hcov : reg.covered.containsA addr)
    (hmiss : alookup reg.sequenceCache addr = none)
    (hic : alookup reg.instCache addr = some il)
    (hblk : reg.blocks[il.blockIdx]? = some blk)
    (hsid : blk.getSeqID il.instID = some esid)
    (hse : blk.seqs[esid]? = some se)
    (hba : blk.insts[se.1]? = some bbAddr)
    (hex : alookup reg.sequenceCache bbAddr = some exLoc)
    (hbb : reg.bbRegistry[exLoc.bbIdx]? = some bb) :
    ∃ loc : SeqLoc, ∃ s' : State,
      getSeqLoc s addr = some (some loc, s') ∧
      loc.blockIdx = il.blockIdx ∧
      ∃ reg' : ExecRegion, s'.regions[r]? = some reg' ∧
        alookup reg'.sequenceCache addr = some loc ∧
        reg'.bbRegistry = reg.bbRegistry ++ [(⟨addr, bb.stop⟩ : BBInfo)] := by
  have hrlen : r < s₁.regions.length := (List.getElem?_eq_some.1 hreg).1
  have hsplit : blk.splitSequence il.instID =
      some ({ blk with seqs := blk.seqs ++ [(il.instID, se.2)] }, blk.seqs.length) := by
    unfold ExecBlock.splitSequence
    simp only [hsid, hse]
  unfold getSeqLoc
  rw [hsr]
  simp only [hreg, if_pos hcov, hmiss, hic, hblk, hsid, hse, hba, hex, hbb, hsplit]
  refine ⟨_, _, rfl, rfl, ?_⟩
  refine ⟨_, by simp only [List.getElem?_set_self hrlen]; exact rfl, ?_, ?_⟩
  · exact alookup_upsert_self _ _ _
  · rfl

/-- A block holding one two-instruction sequence at guest addresses 100
and 105, with only the sequence head cached. -/
def splitBlock : ExecBlock := ⟨[100, 105], [(0, 1)], 10⟩

def splitRegion : ExecRegion :=
  ⟨⟨100, 110⟩, 10, 0, [splitBlock],
   [(100, ⟨0, 0, 0⟩)],
   [(100, ⟨0, 0⟩), (105, ⟨0, 1⟩)],
   [⟨100, 110⟩], []⟩

def splitState : State := ⟨[splitRegion], [], 1, 1, (0, 0), []⟩

theorem getSeqLoc_lazy_split_witness :
    ∃ loc : SeqLoc, ∃ s' : State,
      getSeqLoc splitState 105 = some (some loc, s') ∧
      loc.blockIdx = 0 ∧
      ∃ reg' : ExecRegion, s'.regions[0]? = some reg' ∧
        alookup reg'.sequenceCache 105 = some loc ∧
        reg'.bbRegistry = [⟨100, 110⟩, ⟨105, 110⟩] :=
  getSeqLoc_lazy_split splitState 105 0 (searchRegion splitState 105).2
    splitRegion ⟨0, 1⟩ splitBlock 0 (0, 1) 100 ⟨0, 0, 0⟩ ⟨100, 110⟩
    rfl rfl (by decide) rfl rfl rfl rfl rfl rfl rfl rfl
